import Mathlib

/-!
Verification development for the `douconel` half-edge mesh kernel.

The Rust sources are embedded shallowly:
* handles (`VertID`, `EdgeID`, `FaceID`) become `Nat` (slotmap keys are
  allocated sequentially on a fresh map, so the `n`-th inserted element gets
  id `n`);
* `SlotMap` key sets become `List Nat` (`List.range n`);
* `SecondaryMap`/`HashMap` become association lists with most-recent-first
  lookup, which reproduces the "last insert wins" overwrite semantics;
* Rust functions that can `panic!` are modelled with `Option` (`none` =
  panic), and `from_faces`, which can bail with a typed error or panic,
  returns a dedicated result type distinguishing the two.
-/

/-- Association-list lookup, first match wins (models `HashMap`/`SecondaryMap`
lookup where inserts are consed to the front). -/
def alookup {α β : Type} [DecidableEq α] : List (α × β) → α → Option β
  | [], _ => none
  | (k, v) :: rest, key => if key = k then some v else alookup rest key

/-- The half-edge mesh `Douconel` (payloads are irrelevant to the claims,
so the three `SlotMap`s are kept as their key lists).  Field names follow
`src/douconel.rs`. -/
structure Douconel where
  verts : List Nat
  edges : List Nat
  faces : List Nat
  edge_root : List (Nat × Nat)
  edge_face : List (Nat × Nat)
  edge_next : List (Nat × Nat)
  edge_twin : List (Nat × Nat)
  vert_rep : List (Nat × Nat)
  face_rep : List (Nat × Nat)

/-- Rust `Douconel::root`: panics (`none`) if the root is undefined or the
stored vertex is not live. -/
def Douconel.root (m : Douconel) (e : Nat) : Option Nat :=
  match alookup m.edge_root e with
  | none => none
  | some v => if v ∈ m.verts then some v else none

/-- Rust `Douconel::twin`: panics (`none`) if the twin is undefined or not live. -/
def Douconel.twin (m : Douconel) (e : Nat) : Option Nat :=
  match alookup m.edge_twin e with
  | none => none
  | some t => if t ∈ m.edges then some t else none

/-- Rust `Douconel::next`: panics (`none`) if the next is undefined or not live. -/
def Douconel.next (m : Douconel) (e : Nat) : Option Nat :=
  match alookup m.edge_next e with
  | none => none
  | some n => if n ∈ m.edges then some n else none

/-- Rust `Douconel::face`: panics (`none`) if the face is undefined or not live. -/
def Douconel.face (m : Douconel) (e : Nat) : Option Nat :=
  match alookup m.edge_face e with
  | none => none
  | some f => if f ∈ m.faces then some f else none

/-- Rust `Douconel::verify_properties`: `true` iff the Rust call returns `Ok(())`. -/
def Douconel.verify_properties (m : Douconel) : Bool :=
  (m.edges.all fun e =>
    (alookup m.edge_root e).isSome && (alookup m.edge_face e).isSome &&
    (alookup m.edge_next e).isSome && (alookup m.edge_twin e).isSome) &&
  (m.verts.all fun v => (alookup m.vert_rep v).isSome) &&
  (m.faces.all fun f => (alookup m.face_rep f).isSome)

/-- Rust `Douconel::verify_references`: `true` iff the Rust call returns
`Ok(())` (a `false` covers both the explicit `bail!`s and the accessor
panics the Rust loop can hit). -/
def Douconel.verify_references (m : Douconel) : Bool :=
  (m.edges.all fun e =>
    (m.root e).isSome && (m.face e).isSome && (m.next e).isSome && (m.twin e).isSome) &&
  (m.verts.all fun v =>
    match alookup m.vert_rep v with
    | some r => m.edges.contains r
    | none => false) &&
  (m.faces.all fun f =>
    match alookup m.face_rep f with
    | some r => m.edges.contains r
    | none => false)

/-- The bounded `this->next->...->next == this` search of
`verify_invariants`: starting from `cur`, take `next` up to `fuel` times and
report whether `target` was hit.  Rust uses `fuel = max_face_size = 100`. -/
def nextSearch (m : Douconel) (target : Nat) : Nat → Nat → Bool
  | _, 0 => false
  | cur, fuel + 1 =>
    match m.next cur with
    | none => false
    | some n => if n = target then true else nextSearch m target n fuel

/-- Rust `Douconel::verify_invariants`: the four structural passes
(`twin∘twin = id`, `root∘next∘twin = root`, `face∘next = face`, and the
bounded `next`-cycle check with `max_face_size = 100`).  `true` iff the Rust
call returns `Ok(())`. -/
def Douconel.verify_invariants (m : Douconel) : Bool :=
  (m.edges.all fun e =>
    match m.twin e with
    | none => false
    | some t =>
      match m.twin t with
      | none => false
      | some tt => tt == e) &&
  (m.edges.all fun e =>
    match m.root e, m.twin e with
    | some r, some t =>
      match m.next t with
      | none => false
      | some tn =>
        match m.root tn with
        | none => false
        | some tnr => tnr == r
    | _, _ => false) &&
  (m.edges.all fun e =>
    match m.face e, m.next e with
    | some f, some n =>
      match m.face n with
      | none => false
      | some nf => nf == f
    | _, _ => false) &&
  (m.edges.all fun e => nextSearch m e e 100)

/-- Iterate `Douconel.next` `t` times from `cur` (`none` as soon as a step
panics).  Used to state the "repeated next returns to e" properties. -/
def nextIter (m : Douconel) : Nat → Nat → Option Nat
  | cur, 0 => some cur
  | cur, t + 1 =>
    match m.next cur with
    | none => none
    | some n => nextIter m n t

/-- Rust `Douconel::edges(FaceID)` body: walk `next` from the representative
edge until it comes back; `fuel` bounds the walk (the Rust loop runs
unboundedly, so callers pass more fuel than any cycle can be long; `none`
models a panic or divergence). -/
def edgesFrom (m : Douconel) (stop : Nat) : Nat → Nat → Option (List Nat)
  | _, 0 => none
  | cur, fuel + 1 =>
    match m.next cur with
    | none => none
    | some nxt =>
      if nxt = stop then some [cur]
      else
        match edgesFrom m stop nxt fuel with
        | none => none
        | some rest => some (cur :: rest)

/-- Rust `Douconel::edges(FaceID)` (named `edges_of` here because `edges` is
already the key-list field): representative edge, then the `next`-walk. -/
def Douconel.edges_of (m : Douconel) (f : Nat) : Option (List Nat) :=
  match alookup m.face_rep f with
  | none => none
  | some e0 => edgesFrom m e0 e0 (m.edges.length + 1)

/-- Map a panicking accessor over a list (`none` as soon as one call panics). -/
def optionMapList {α β : Type} (g : α → Option β) : List α → Option (List β)
  | [] => some []
  | x :: t =>
    match g x with
    | none => none
    | some b =>
      match optionMapList g t with
      | none => none
      | some rest => some (b :: rest)

/-- Rust `Douconel::corners`: the roots of the face's edges. -/
def Douconel.corners (m : Douconel) (f : Nat) : Option (List Nat) :=
  match m.edges_of f with
  | none => none
  | some es => optionMapList m.root es

/-! ## The construction engine `from_faces` -/

/-- Itertools `unique()` with an explicit seen-set: keeps the first
occurrence of every element. -/
def uniqueAux : List Nat → List Nat → List Nat
  | _, [] => []
  | seen, x :: rest =>
    if x ∈ seen then uniqueAux seen rest else x :: uniqueAux (x :: seen) rest

/-- `faces.iter().flatten().unique()`: distinct elements in first-appearance
order. -/
def uniqueFirst (l : List Nat) : List Nat := uniqueAux [] l

/-- The vertex-pointer map: the `i`-th distinct input index is mapped to the
`i`-th allocated vertex handle, i.e. to `i` itself (entry `(input index,
handle)`), starting at handle `n`. -/
def enumKeys (n : Nat) : List Nat → List (Nat × Nat)
  | [] => []
  | v :: t => (v, n) :: enumKeys (n + 1) t

/-- Itertools `tuple_windows()` on a list: all adjacent pairs. -/
def pairUp : List Nat → List (Nat × Nat)
  | [] => []
  | [_] => []
  | a :: b :: t => (a, b) :: pairUp (b :: t)

/-- The directed boundary pairs of one input face: `tuple_windows` over the
face with its first vertex re-appended (`conc` in the Rust source). -/
def wrapPairs : List Nat → List (Nat × Nat)
  | [] => []
  | v0 :: t => pairUp ((v0 :: t) ++ [v0])

/-- All directed boundary pairs induced by an input face list (used to state
the non-manifold condition on raw inputs). -/
def inputPairs : List (List Nat) → List (Nat × Nat)
  | [] => []
  | f :: fs => wrapPairs f ++ inputPairs fs

/-- Map a pair list through the vertex-pointer map; `none` models the
`panic!("... does not have a vertex pointer")` sites. -/
def mapVP (vm : List (Nat × Nat)) : List (Nat × Nat) → Option (List (Nat × Nat))
  | [] => some []
  | (a, b) :: t =>
    match alookup vm a, alookup vm b with
    | some a', some b' =>
      match mapVP vm t with
      | none => none
      | some rest => some ((a', b') :: rest)
    | _, _ => none

/-- Mutable state of the construction loop in `from_faces`
(`mesh`-sofar plus the bookkeeping maps; edge and face handle counters stand
for the slotmaps). -/
structure BState where
  nextEdge : Nat
  nextFace : Nat
  edge_root : List (Nat × Nat)
  edge_face : List (Nat × Nat)
  edge_next : List (Nat × Nat)
  vert_to_edge : List (Nat × Nat)
  face_to_edge : List (Nat × Nat)
  face_pointers : List (Nat × Nat)
  endpoints : List ((Nat × Nat) × Nat)

/-- Construction-time failure: `dupEdge` is the `bail!` for a duplicated
directed edge; the others are panic sites (`emptyFace` = `inp_face_edges[0]`
on an empty face, `noVertPtr` = missing vertex pointer, `other` = the
remaining unreachable `unwrap`/`panic!` sites). -/
inductive BuildErr where
  | dupEdge : BuildErr
  | emptyFace : BuildErr
  | noVertPtr : BuildErr
  | other : BuildErr

/-- The inner edge-creation loop of `from_faces` step 2: allocate one edge
per directed pair, bailing out if the pair was already claimed.  Returns the
new state and the `edge_ids` list. -/
def buildEdges (fid : Nat) (s : BState) : List (Nat × Nat) → Except BuildErr (BState × List Nat)
  | [] => .ok (s, [])
  | (a, b) :: rest =>
    let eid := s.nextEdge
    if (alookup s.endpoints (a, b)).isSome then .error .dupEdge
    else
      match buildEdges fid
          { s with
            nextEdge := eid + 1
            endpoints := ((a, b), eid) :: s.endpoints
            edge_root := (eid, a) :: s.edge_root
            edge_face := (eid, fid) :: s.edge_face
            vert_to_edge := (a, eid) :: s.vert_to_edge } rest with
      | .error err => .error err
      | .ok (s', ids) => .ok (s', eid :: ids)

/-- Cyclic `next` links of an `edge_ids` list:
`(ids[i], ids[(i+1) % len])` for every `i`.  `linkFrom first l` chains `l`
and closes back to `first`. -/
def linkFrom (first : Nat) : List Nat → List (Nat × Nat)
  | [] => []
  | [x] => [(x, first)]
  | x :: y :: t => (x, y) :: linkFrom first (y :: t)

/-- All cyclic `next` links of a face's `edge_ids`. -/
def cyclicNext : List Nat → List (Nat × Nat)
  | [] => []
  | x :: t => linkFrom x (x :: t)

/-- Process one input face (the body of the `for (inp_face_id, inp_face_edges)`
loop): allocate the face handle, map the wrapped vertex pairs through the
pointer map, run the edge loop, record the face representative and the
cyclic `next` links. -/
def processFace (vm : List (Nat × Nat)) (idx : Nat) (s : BState) (face : List Nat) :
    Except BuildErr BState :=
  match face with
  | [] => .error .emptyFace
  | v0 :: t =>
    let fid := s.nextFace
    match mapVP vm (pairUp ((v0 :: t) ++ [v0])) with
    | none => .error .noVertPtr
    | some pairs =>
      match buildEdges fid
          { s with
            nextFace := fid + 1
            face_pointers := (idx, fid) :: s.face_pointers } pairs with
      | .error err => .error err
      | .ok (s', edge_ids) =>
        match edge_ids with
        | [] => .error .other
        | e0 :: _ =>
          .ok { s' with
                face_to_edge := (fid, e0) :: s'.face_to_edge
                edge_next := (cyclicNext edge_ids).reverse ++ s'.edge_next }

/-- The face loop of `from_faces` step 2 (`idx` is the `enumerate` index). -/
def buildFaces (vm : List (Nat × Nat)) : Nat → BState → List (List Nat) → Except BuildErr BState
  | _, s, [] => .ok s
  | idx, s, face :: rest =>
    match processFace vm idx s face with
    | .error err => .error err
    | .ok s' => buildFaces vm (idx + 1) s' rest

/-- Step 3 of `from_faces`: for every live id (in key order) take its entry
of the bookkeeping map as representative; `none` models the
`panic!("... has no representative edge")` sites. -/
def buildReps (ids : List Nat) (m : List (Nat × Nat)) : Option (List (Nat × Nat)) :=
  match ids with
  | [] => some []
  | v :: t =>
    match alookup m v with
    | none => none
    | some e =>
      match buildReps t m with
      | none => none
      | some rest => some ((v, e) :: rest)

/-- Step 4 of `from_faces`: for every `((a,b), e)` entry of
`endpoints_to_edges`, look up the reversed pair and link the two edges as
mutual twins; `none` models the `panic!("... does not have a twin")` site. -/
def buildTwins (eps : List ((Nat × Nat) × Nat)) :
    List ((Nat × Nat) × Nat) → List (Nat × Nat) → Option (List (Nat × Nat))
  | [], acc => some acc
  | ((a, b), e) :: rest, acc =>
    match alookup eps (b, a) with
    | none => none
    | some t => buildTwins eps rest ((t, e) :: (e, t) :: acc)

/-- Outcome of `from_faces`: the mesh together with the vertex and face
pointer maps, the typed `bail!` error for a duplicated directed edge, or one
of the panic outcomes (a Rust panic is not a returned error, so it is kept
distinct;  the panic payloads are dropped because the reported handle
depends on `HashMap` iteration order). -/
inductive FFResult where
  | ok : Douconel → List (Nat × Nat) → List (Nat × Nat) → FFResult
  | errDuplicateEdge : FFResult
  | panicEmptyFace : FFResult
  | panicNoVertPtr : FFResult
  | panicMissingTwin : FFResult
  | panicOther : FFResult

/-- Rust `Douconel::from_faces`. -/
def from_faces (faces : List (List Nat)) : FFResult :=
  let vertices := uniqueFirst faces.flatten
  let vmap := enumKeys 0 vertices
  let s0 : BState := ⟨0, 0, [], [], [], [], [], [], []⟩
  match buildFaces vmap 0 s0 faces with
  | .error .dupEdge => .errDuplicateEdge
  | .error .emptyFace => .panicEmptyFace
  | .error .noVertPtr => .panicNoVertPtr
  | .error .other => .panicOther
  | .ok s =>
    match buildReps (List.range vertices.length) s.vert_to_edge with
    | none => .panicOther
    | some vreps =>
      match buildReps (List.range s.nextFace) s.face_to_edge with
      | none => .panicOther
      | some freps =>
        match buildTwins s.endpoints s.endpoints [] with
        | none => .panicMissingTwin
        | some twins =>
          .ok
            { verts := List.range vertices.length
              edges := List.range s.nextEdge
              faces := List.range s.nextFace
              edge_root := s.edge_root
              edge_face := s.edge_face
              edge_next := s.edge_next
              edge_twin := twins
              vert_rep := vreps
              face_rep := freps }
            vmap s.face_pointers

/-- Whether a construction outcome is `ok` (used to restate success
without naming the components). -/
def isOkBuild : FFResult → Bool
  | .ok _ _ _ => true
  | _ => false

/-- Run the three verification passes on the mesh built from `faces`
(`none` when construction did not return a mesh). -/
def verifyAfterBuild (faces : List (List Nat)) : Option (Bool × Bool × Bool) :=
  match from_faces faces with
  | .ok m _ _ => some (m.verify_properties, m.verify_references, m.verify_invariants)
  | _ => none

/-- Total length of the inner lists (the number of half-edges `from_faces`
creates on success). -/
def sumLen {α : Type} : List (List α) → Nat
  | [] => 0
  | f :: fs => f.length + sumLen fs

/-! ## Pathfinding (`find_shortest_path` / `find_shortest_cycle`)

The node type `T` and the weight type `W` are kept generic (`W` plays the
role of `OrderedFloat<f32>`: a totally ordered type with `0` and `+`; the
algorithms use nothing else about it). -/

/-- The externally owned adjacency cache `HashMap<T, Vec<(T, W)>>`. -/
abbrev PathCache (T W : Type) : Type := List (T × List (T × W))

/-- The successors closure passed to `dijkstra` in `find_shortest_path`:
answer from the cache if present, otherwise evaluate the neighbor and
weight functions and insert the result. -/
def cachedSuccessors {T W : Type} [DecidableEq T] (nf : T → List T) (wf : T → T → W)
    (elem : T) (cache : PathCache T W) : List (T × W) × PathCache T W :=
  match alookup cache elem with
  | some l => (l, cache)
  | none =>
    let ns := (nf elem).map fun n => (n, wf elem n)
    (ns, (elem, ns) :: cache)

/-- Remove a minimum-cost entry from the frontier (the binary heap of the
`pathfinding` crate; ties resolved towards the earlier entry). -/
def extractMin {T W : Type} [LinearOrder W] :
    List (T × W × List T) → Option ((T × W × List T) × List (T × W × List T))
  | [] => none
  | x :: t =>
    match extractMin t with
    | none => some (x, [])
    | some (m, rest) => if x.2.1 ≤ m.2.1 then some (x, t) else some (m, x :: rest)

/-- Modelled from the spec: the external `pathfinding::prelude::dijkstra`
("single-source/single-target weighted search (Dijkstra)"), fuel-bounded.
Frontier entries carry `(node, cost so far, reversed path to the node)`;
the goal test happens when a node is popped.  Returns the result and the
final cache (the successors closure mutates the caller's cache). -/
def dijkstraAux {T W : Type} [DecidableEq T] [LinearOrder W] [Add W]
    (nf : T → List T) (wf : T → T → W) (goal : T → Bool) :
    Nat → List (T × W × List T) → List T → PathCache T W →
    Option (List T × W) × PathCache T W
  | 0, _, _, cache => (none, cache)
  | fuel + 1, frontier, settled, cache =>
    match extractMin frontier with
    | none => (none, cache)
    | some ((node, cost, path), rest) =>
      if goal node then (some ((node :: path).reverse, cost), cache)
      else if node ∈ settled then dijkstraAux nf wf goal fuel rest settled cache
      else
        match cachedSuccessors nf wf node cache with
        | (succs, cache') =>
          dijkstraAux nf wf goal fuel
            (rest ++ succs.map fun sw => (sw.1, cost + sw.2, node :: path))
            (node :: settled) cache'

/-- Rust `find_shortest_path` (free function in `douconel.rs`): Dijkstra
from `a` to `b` with the caching successors closure. -/
def find_shortest_path {T W : Type} [DecidableEq T] [LinearOrder W] [Add W] [Zero W]
    (fuel : Nat) (a b : T) (nf : T → List T) (wf : T → T → W)
    (cache : PathCache T W) : Option (List T × W) × PathCache T W :=
  dijkstraAux nf wf (fun e => e == b) fuel [(a, 0, [])] [] cache

/-- The `filter_map` pass of `find_shortest_cycle`: run `find_shortest_path`
from every neighbor back to `a`, threading the one shared cache, keeping
the successful results in order. -/
def collectPaths {T W : Type} [DecidableEq T] [LinearOrder W] [Add W] [Zero W]
    (fuel : Nat) (a : T) (nf : T → List T) (wf : T → T → W) :
    List T → PathCache T W → List (List T × W) × PathCache T W
  | [], cache => ([], cache)
  | n :: rest, cache =>
    match find_shortest_path fuel n a nf wf cache with
    | (none, cache') => collectPaths fuel a nf wf rest cache'
    | (some pw, cache') =>
      match collectPaths fuel a nf wf rest cache' with
      | (results, cache'') => (pw :: results, cache'')

/-- Itertools `sorted_by(|(_, c1), (_, c2)| c1.cmp(c2))`: a stable sort by
cost only (insertion sort). -/
def insertByCost {T W : Type} [LinearOrder W] (x : List T × W) :
    List (List T × W) → List (List T × W)
  | [] => [x]
  | y :: t => if x.2 ≤ y.2 then x :: y :: t else y :: insertByCost x t

/-- Stable sort by cost. -/
def sortByCost {T W : Type} [LinearOrder W] : List (List T × W) → List (List T × W)
  | [] => []
  | x :: t => insertByCost x (sortByCost t)

/-- Rust `find_shortest_cycle` (free function in `douconel.rs`): paths from
all neighbors of `a` back to `a` over one shared cache, sorted by cost, the
first one (if any) prefixed with `a`. -/
def find_shortest_cycle {T W : Type} [DecidableEq T] [LinearOrder W] [Add W] [Zero W]
    (fuel : Nat) (a : T) (nf : T → List T) (wf : T → T → W)
    (cache : PathCache T W) : Option (List T × W) × PathCache T W :=
  match collectPaths fuel a nf wf (nf a) cache with
  | (results, cache') =>
    match (sortByCost results).head? with
    | none => (none, cache')
    | some (path, score) => (some (a :: path, score), cache')

/-- The first minimum-cost element of a result list (earlier entries win
ties, matching the spec's "ties broken by iteration order"). -/
def firstMinByCost {T W : Type} [LinearOrder W] : List (List T × W) → Option (List T × W)
  | [] => none
  | x :: t =>
    match firstMinByCost t with
    | none => some x
    | some m => if x.2 ≤ m.2 then some x else some m

/-- Modelled from the spec: "Shortest cycle through node `a`: for every
neighbor `n` of `a`, compute shortest path `n → a` (same cache), pick the
minimum-cost result, prepend `a`."  Used as the comparison point for the
refinement claim about `find_shortest_cycle`. -/
def shortest_cycle_spec {T W : Type} [DecidableEq T] [LinearOrder W] [Add W] [Zero W]
    (fuel : Nat) (a : T) (nf : T → List T) (wf : T → T → W)
    (cache : PathCache T W) : Option (List T × W) × PathCache T W :=
  match collectPaths fuel a nf wf (nf a) cache with
  | (results, cache') =>
    match firstMinByCost results with
    | none => (none, cache')
    | some (path, score) => (some (a :: path, score), cache')

/-- A cache is coherent with the neighbor and weight functions when every
entry holds exactly what `cachedSuccessors` would compute for its key.  The
empty (fresh) cache is trivially coherent. -/
def CoherentCache {T W : Type} (nf : T → List T) (wf : T → T → W)
    (cache : PathCache T W) : Prop :=
  ∀ p ∈ cache, p.2 = (nf p.1).map fun n => (n, wf p.1 n)

/-! ## Generic association-list lemmas -/

theorem alookup_cons {α β : Type} [DecidableEq α] (k : α) (v : β) (l : List (α × β)) (key : α) :
    alookup ((k, v) :: l) key = if key = k then some v else alookup l key := rfl

theorem alookup_append {α β : Type} [DecidableEq α] (l₁ l₂ : List (α × β)) (key : α) :
    alookup (l₁ ++ l₂) key =
      match alookup l₁ key with
      | some v => some v
      | none => alookup l₂ key := by
  induction l₁ with
  | nil => simp [alookup]
  | cons p t ih =>
    obtain ⟨k, v⟩ := p
    by_cases h : key = k <;> simp [alookup, h, ih]

theorem alookup_mem {α β : Type} [DecidableEq α] {l : List (α × β)} {key : α} {v : β}
    (h : alookup l key = some v) : (key, v) ∈ l := by
  induction l with
  | nil => simp [alookup] at h
  | cons p t ih =>
    obtain ⟨k, w⟩ := p
    by_cases hk : key = k
    · subst hk
      simp [alookup] at h
      simp [h]
    · simp [alookup, hk] at h
      exact List.mem_cons_of_mem _ (ih h)

theorem alookup_isSome_of_mem {α β : Type} [DecidableEq α] {l : List (α × β)} {key : α} {v : β}
    (h : (key, v) ∈ l) : (alookup l key).isSome := by
  induction l with
  | nil => simp at h
  | cons p t ih =>
    obtain ⟨k, w⟩ := p
    by_cases hk : key = k
    · simp [alookup, hk]
    · rcases List.mem_cons.mp h with h' | h'
      · cases h'; simp at hk
      · simp [alookup, hk, ih h']

theorem alookup_eq_none_iff {α β : Type} [DecidableEq α] {l : List (α × β)} {key : α} :
    alookup l key = none ↔ key ∉ l.map Prod.fst := by
  induction l with
  | nil => simp [alookup]
  | cons p t ih =>
    obtain ⟨k, w⟩ := p
    by_cases hk : key = k <;> simp [alookup, hk, ih]

theorem alookup_isSome_iff {α β : Type} [DecidableEq α] {l : List (α × β)} {key : α} :
    (alookup l key).isSome ↔ key ∈ l.map Prod.fst := by
  rcases h : alookup l key with _ | v
  · simp [alookup_eq_none_iff.mp h]
  · have : key ∈ l.map Prod.fst := by
      by_contra hc
      rw [alookup_eq_none_iff.mpr hc] at h
      exact Option.noConfusion h
    simp [this]

theorem alookup_of_mem_nodup {α β : Type} [DecidableEq α] {l : List (α × β)} {key : α} {v : β}
    (hnd : (l.map Prod.fst).Nodup) (h : (key, v) ∈ l) : alookup l key = some v := by
  induction l with
  | nil => simp at h
  | cons p t ih =>
    obtain ⟨k, w⟩ := p
    simp only [List.map_cons, List.nodup_cons] at hnd
    rcases List.mem_cons.mp h with h' | h'
    · cases h'
      simp [alookup]
    · have hk : key ≠ k := by
        rintro rfl
        exact hnd.1 (List.mem_map.mpr ⟨(key, v), h', rfl⟩)
      simp [alookup, hk, ih hnd.2 h']

theorem alookup_reverse {α β : Type} [DecidableEq α] {l : List (α × β)}
    (hnd : (l.map Prod.fst).Nodup) (key : α) : alookup l.reverse key = alookup l key := by
  rcases h : alookup l key with _ | v
  · rw [alookup_eq_none_iff] at h ⊢
    simpa using h
  · exact alookup_of_mem_nodup (by simpa using hnd) (by simpa using alookup_mem h)

/-! ## Closed forms of the per-face blocks `from_faces` builds -/

/-- Edge-root entries of one face starting at edge id `n`: edge `n + j` is
rooted at the first component of the `j`-th pair. -/
def rootBlock (n : Nat) : List (Nat × Nat) → List (Nat × Nat)
  | [] => []
  | p :: t => (n, p.1) :: rootBlock (n + 1) t

/-- Edge-face entries of one face `fid` starting at edge id `n`. -/
def faceBlock (n fid : Nat) : List (Nat × Nat) → List (Nat × Nat)
  | [] => []
  | _ :: t => (n, fid) :: faceBlock (n + 1) fid t

/-- Root-vertex-to-edge entries of one face starting at edge id `n`. -/
def vteBlock (n : Nat) : List (Nat × Nat) → List (Nat × Nat)
  | [] => []
  | p :: t => (p.1, n) :: vteBlock (n + 1) t

/-- Endpoint-pair-to-edge entries of one face starting at edge id `n`. -/
def epBlock (n : Nat) : List (Nat × Nat) → List ((Nat × Nat) × Nat)
  | [] => []
  | p :: t => (p, n) :: epBlock (n + 1) t

/-- Blocks of consecutive faces: edge-root entries. -/
def rootBlocks (n : Nat) : List (List (Nat × Nat)) → List (Nat × Nat)
  | [] => []
  | ps :: pss => rootBlock n ps ++ rootBlocks (n + ps.length) pss

/-- Blocks of consecutive faces: edge-face entries (`fid` counts up). -/
def faceBlocks (n fid : Nat) : List (List (Nat × Nat)) → List (Nat × Nat)
  | [] => []
  | ps :: pss => faceBlock n fid ps ++ faceBlocks (n + ps.length) (fid + 1) pss

/-- Blocks of consecutive faces: cyclic `next` entries. -/
def nextBlocks (n : Nat) : List (List (Nat × Nat)) → List (Nat × Nat)
  | [] => []
  | ps :: pss => cyclicNext (List.range' n ps.length) ++ nextBlocks (n + ps.length) pss

/-- Blocks of consecutive faces: vertex-to-edge entries. -/
def vteBlocks (n : Nat) : List (List (Nat × Nat)) → List (Nat × Nat)
  | [] => []
  | ps :: pss => vteBlock n ps ++ vteBlocks (n + ps.length) pss

/-- Blocks of consecutive faces: face-to-representative-edge entries. -/
def fteBlocks (fid n : Nat) : List (List (Nat × Nat)) → List (Nat × Nat)
  | [] => []
  | ps :: pss => (fid, n) :: fteBlocks (fid + 1) (n + ps.length) pss

/-- Blocks of consecutive faces: input-index-to-face-handle entries. -/
def fpBlocks (idx fid : Nat) : List (List (Nat × Nat)) → List (Nat × Nat)
  | [] => []
  | _ :: pss => (idx, fid) :: fpBlocks (idx + 1) (fid + 1) pss

/-- Blocks of consecutive faces: endpoint-pair-to-edge entries. -/
def epBlocks (n : Nat) : List (List (Nat × Nat)) → List ((Nat × Nat) × Nat)
  | [] => []
  | ps :: pss => epBlock n ps ++ epBlocks (n + ps.length) pss

/-- Total number of pairs over all faces. -/
def totalLen : List (List (Nat × Nat)) → Nat
  | [] => 0
  | ps :: pss => ps.length + totalLen pss

/-! ## Key lists and lookups of the blocks -/

theorem rootBlock_keys (n : Nat) (ps : List (Nat × Nat)) :
    (rootBlock n ps).map Prod.fst = List.range' n ps.length := by
  induction ps generalizing n with
  | nil => simp [rootBlock]
  | cons p t ih => simp [rootBlock, List.range'_succ, ih]

theorem faceBlock_keys (n fid : Nat) (ps : List (Nat × Nat)) :
    (faceBlock n fid ps).map Prod.fst = List.range' n ps.length := by
  induction ps generalizing n with
  | nil => simp [faceBlock]
  | cons p t ih => simp [faceBlock, List.range'_succ, ih]

theorem epBlock_keys (n : Nat) (ps : List (Nat × Nat)) :
    (epBlock n ps).map Prod.fst = ps := by
  induction ps generalizing n with
  | nil => simp [epBlock]
  | cons p t ih => simp [epBlock, ih]

theorem epBlock_vals (n : Nat) (ps : List (Nat × Nat)) :
    (epBlock n ps).map Prod.snd = List.range' n ps.length := by
  induction ps generalizing n with
  | nil => simp [epBlock]
  | cons p t ih => simp [epBlock, List.range'_succ, ih]

theorem vteBlock_vals (n : Nat) (ps : List (Nat × Nat)) :
    (vteBlock n ps).map Prod.snd = List.range' n ps.length := by
  induction ps generalizing n with
  | nil => simp [vteBlock]
  | cons p t ih => simp [vteBlock, List.range'_succ, ih]

theorem vteBlock_keys (n : Nat) (ps : List (Nat × Nat)) :
    (vteBlock n ps).map Prod.fst = ps.map Prod.fst := by
  induction ps generalizing n with
  | nil => simp [vteBlock]
  | cons p t ih => simp [vteBlock, ih]

theorem rootBlock_lookup (n : Nat) (ps : List (Nat × Nat)) (j : Nat) (hj : j < ps.length) :
    alookup (rootBlock n ps) (n + j) = some ((ps.getD j (0, 0)).1) := by
  induction ps generalizing n j with
  | nil => simp at hj
  | cons p t ih =>
    cases j with
    | zero => simp [rootBlock, alookup]
    | succ j' =>
      have hne : n + (j' + 1) ≠ n := by omega
      have : n + (j' + 1) = (n + 1) + j' := by omega
      simp only [rootBlock, alookup, hne, if_neg hne, List.getD_cons_succ]
      rw [this]
      exact ih (n + 1) j' (by simpa using hj)

theorem faceBlock_lookup (n fid : Nat) (ps : List (Nat × Nat)) (j : Nat) (hj : j < ps.length) :
    alookup (faceBlock n fid ps) (n + j) = some fid := by
  induction ps generalizing n j with
  | nil => simp at hj
  | cons p t ih =>
    cases j with
    | zero => simp [faceBlock, alookup]
    | succ j' =>
      have hne : n + (j' + 1) ≠ n := by omega
      have : n + (j' + 1) = (n + 1) + j' := by omega
      simp only [faceBlock, alookup, if_neg hne]
      rw [this]
      exact ih (n + 1) j' (by simpa using hj)

theorem epBlock_mem {n : Nat} {ps : List (Nat × Nat)} {q : (Nat × Nat) × Nat}
    (h : q ∈ epBlock n ps) : ∃ j, j < ps.length ∧ q = (ps.getD j (0, 0), n + j) := by
  induction ps generalizing n with
  | nil => simp [epBlock] at h
  | cons p t ih =>
    rcases List.mem_cons.mp h with h' | h'
    · exact ⟨0, by simp, by simpa using h'⟩
    · obtain ⟨j, hj, hq⟩ := ih h'
      exact ⟨j + 1, by simpa using hj, by simpa [Nat.add_assoc, Nat.add_comm 1 j] using hq⟩

theorem epBlock_mem_of (n : Nat) (ps : List (Nat × Nat)) (j : Nat) (hj : j < ps.length) :
    (ps.getD j (0, 0), n + j) ∈ epBlock n ps := by
  induction ps generalizing n j with
  | nil => simp at hj
  | cons p t ih =>
    cases j with
    | zero => simp [epBlock]
    | succ j' =>
      have : n + (j' + 1) = (n + 1) + j' := by omega
      rw [List.getD_cons_succ, this]
      exact List.mem_cons_of_mem _ (ih (n + 1) j' (by simpa using hj))

/-! ## Lemmas about the cyclic `next` links -/

theorem linkFrom_range'_lookup (first : Nat) :
    ∀ (c m j : Nat), j < c →
      alookup (linkFrom first (List.range' m c)) (m + j) =
        some (if j + 1 = c then first else m + j + 1) := by
  intro c
  induction c with
  | zero => intro m j hj; omega
  | succ c' ih =>
    intro m j hj
    cases c' with
    | zero =>
      interval_cases j
      simp [List.range'_succ, List.range'_zero, linkFrom, alookup]
    | succ c'' =>
      rw [List.range'_succ, List.range'_succ]
      cases j with
      | zero =>
        have hc : ¬ (0 + 1 = c'' + 1 + 1) := by omega
        simp [linkFrom, alookup, hc]
      | succ j' =>
        have harr : m + (j' + 1) = (m + 1) + j' := by omega
        show alookup ((m, m + 1) :: linkFrom first ((m + 1) :: List.range' (m + 1 + 1) c''))
            (m + (j' + 1)) = _
        rw [alookup_cons, if_neg (by omega : ¬ m + (j' + 1) = m)]
        have hih := ih (m + 1) j' (by omega)
        rw [List.range'_succ] at hih
        rw [harr, hih]
        by_cases hc : j' + 1 = c'' + 1
        · simp [hc]
        · have harr2 : m + 1 + j' + 1 = m + (j' + 1) + 1 := by omega
          simp [hc, harr2]

theorem cyclicNext_range' (n k j : Nat) (hk : 0 < k) (hj : j < k) :
    alookup (cyclicNext (List.range' n k)) (n + j) = some (n + (j + 1) % k) := by
  have hrw : List.range' n k = n :: List.range' (n + 1) (k - 1) := by
    cases k with
    | zero => omega
    | succ k' => simp [List.range'_succ]
  have hcyc : cyclicNext (List.range' n k) = linkFrom n (List.range' n k) := by
    rw [hrw]; rfl
  rw [hcyc, linkFrom_range'_lookup n k n j hj]
  by_cases hc : j + 1 = k
  · simp [hc, Nat.mod_self]
  · have : (j + 1) % k = j + 1 := Nat.mod_eq_of_lt (by omega)
    simp [hc, this, Nat.add_assoc]

theorem linkFrom_keys (first : Nat) : ∀ (l : List Nat), (linkFrom first l).map Prod.fst = l := by
  intro l
  induction l with
  | nil => simp [linkFrom]
  | cons x t ih =>
    cases t with
    | nil => simp [linkFrom]
    | cons y t' =>
      simp only [linkFrom, List.map_cons, List.cons.injEq, true_and]
      simpa [linkFrom] using ih

theorem cyclicNext_keys (l : List Nat) : (cyclicNext l).map Prod.fst = l := by
  cases l with
  | nil => simp [cyclicNext]
  | cons x t => simpa [cyclicNext] using linkFrom_keys x (x :: t)

/-! ## Characterizing the construction loops on success -/

theorem mapVP_length {vm : List (Nat × Nat)} :
    ∀ {l : List (Nat × Nat)} {r : List (Nat × Nat)}, mapVP vm l = some r → r.length = l.length := by
  intro l
  induction l with
  | nil => intro r h; simp [mapVP] at h; simp [← h]
  | cons p t ih =>
    intro r h
    obtain ⟨a, b⟩ := p
    simp only [mapVP] at h
    rcases ha : alookup vm a with _ | a' <;> rw [ha] at h
    · exact absurd h (by simp)
    rcases hb : alookup vm b with _ | b' <;> rw [hb] at h
    · exact absurd h (by simp)
    rcases hr : mapVP vm t with _ | rest <;> rw [hr] at h
    · exact absurd h (by simp)
    simp only [Option.some.injEq] at h
    subst h
    simp [ih hr]

theorem pairUp_length : ∀ c : List Nat, (pairUp c).length = c.length - 1 := by
  intro c
  induction c with
  | nil => simp [pairUp]
  | cons a t ih =>
    cases t with
    | nil => simp [pairUp]
    | cons b t' => simpa [pairUp] using ih

theorem wrapPairs_length {face : List Nat} (h : face ≠ []) :
    (wrapPairs face).length = face.length := by
  cases face with
  | nil => exact absurd rfl h
  | cons v0 t => simp [wrapPairs, pairUp_length]

theorem buildEdges_ok {fid : Nat} :
    ∀ {ps : List (Nat × Nat)} {s s' : BState} {ids : List Nat},
      buildEdges fid s ps = .ok (s', ids) →
      s'.nextEdge = s.nextEdge + ps.length ∧ s'.nextFace = s.nextFace ∧
      s'.edge_root = (rootBlock s.nextEdge ps).reverse ++ s.edge_root ∧
      s'.edge_face = (faceBlock s.nextEdge fid ps).reverse ++ s.edge_face ∧
      s'.edge_next = s.edge_next ∧
      s'.vert_to_edge = (vteBlock s.nextEdge ps).reverse ++ s.vert_to_edge ∧
      s'.face_to_edge = s.face_to_edge ∧
      s'.face_pointers = s.face_pointers ∧
      s'.endpoints = (epBlock s.nextEdge ps).reverse ++ s.endpoints ∧
      ids = List.range' s.nextEdge ps.length ∧
      (∀ p ∈ ps, alookup s.endpoints p = none) ∧ ps.Nodup := by
  intro ps
  induction ps with
  | nil =>
    intro s s' ids h
    simp only [buildEdges, Except.ok.injEq, Prod.mk.injEq] at h
    obtain ⟨h1, h2⟩ := h
    subst h1; subst h2
    simp [rootBlock, faceBlock, vteBlock, epBlock, List.range']
  | cons p t ih =>
    intro s s' ids h
    obtain ⟨a, b⟩ := p
    simp only [buildEdges] at h
    by_cases hdup : (alookup s.endpoints (a, b)).isSome
    · rw [if_pos hdup] at h; exact absurd h (by simp)
    rw [if_neg hdup] at h
    have hfresh : alookup s.endpoints (a, b) = none := by
      rcases hx : alookup s.endpoints (a, b) with _ | v
      · rfl
      · rw [hx] at hdup; simp at hdup
    rcases hrec : buildEdges fid
        { s with
          nextEdge := s.nextEdge + 1
          endpoints := ((a, b), s.nextEdge) :: s.endpoints
          edge_root := (s.nextEdge, a) :: s.edge_root
          edge_face := (s.nextEdge, fid) :: s.edge_face
          vert_to_edge := (a, s.nextEdge) :: s.vert_to_edge } t with _ | q <;> rw [hrec] at h
    · exact absurd h (by simp)
    obtain ⟨s₁, ids₁⟩ := q
    simp only [Except.ok.injEq, Prod.mk.injEq] at h
    obtain ⟨h1, h2⟩ := h
    subst h1; subst h2
    obtain ⟨e1, e2, e3, e4, e5, e6, e7, e8, e9, e10, e11, e12⟩ := ih hrec
    simp only at e1 e2 e3 e4 e5 e6 e7 e8 e9 e10 e11
    refine ⟨by simpa [Nat.add_assoc, Nat.add_comm 1 t.length] using e1, e2, ?_, ?_, e5, ?_, e7, e8, ?_, ?_, ?_, ?_⟩
    · rw [e3]
      simp [rootBlock, List.append_assoc]
    · rw [e4]
      simp [faceBlock, List.append_assoc]
    · rw [e6]
      simp [vteBlock, List.append_assoc]
    · rw [e9]
      simp [epBlock, List.append_assoc]
    · rw [e10, List.length_cons, List.range'_succ]
    · intro q hq
      rcases List.mem_cons.mp hq with h' | h'
      · subst h'; exact hfresh
      · have := e11 q h'
        rw [alookup_cons] at this
        by_cases hqa : q = (a, b)
        · rw [if_pos hqa] at this; exact absurd this (by simp)
        · rw [if_neg hqa] at this; exact this
    · refine List.nodup_cons.mpr ⟨?_, e12⟩
      intro hmem
      have := e11 (a, b) hmem
      rw [alookup_cons, if_pos rfl] at this
      exact absurd this (by simp)

theorem processFace_ok {vm : List (Nat × Nat)} {idx : Nat} {s : BState} {face : List Nat}
    {S : BState} (h : processFace vm idx s face = .ok S) :
    ∃ ps, face ≠ [] ∧ mapVP vm (wrapPairs face) = some ps ∧ ps.length = face.length ∧
      (∀ p ∈ ps, alookup s.endpoints p = none) ∧ ps.Nodup ∧
      S.nextEdge = s.nextEdge + ps.length ∧ S.nextFace = s.nextFace + 1 ∧
      S.edge_root = (rootBlock s.nextEdge ps).reverse ++ s.edge_root ∧
      S.edge_face = (faceBlock s.nextEdge s.nextFace ps).reverse ++ s.edge_face ∧
      S.edge_next = (cyclicNext (List.range' s.nextEdge ps.length)).reverse ++ s.edge_next ∧
      S.vert_to_edge = (vteBlock s.nextEdge ps).reverse ++ s.vert_to_edge ∧
      S.face_to_edge = (s.nextFace, s.nextEdge) :: s.face_to_edge ∧
      S.face_pointers = (idx, s.nextFace) :: s.face_pointers ∧
      S.endpoints = (epBlock s.nextEdge ps).reverse ++ s.endpoints := by
  cases face with
  | nil => exact absurd h (by simp [processFace])
  | cons v0 t =>
    simp only [processFace] at h
    rcases hmv : mapVP vm (pairUp ((v0 :: t) ++ [v0])) with _ | pairs
    · rw [hmv] at h
      exact absurd h (by simp)
    simp only [hmv] at h
    rcases hbe : buildEdges s.nextFace
        { s with
          nextFace := s.nextFace + 1
          face_pointers := (idx, s.nextFace) :: s.face_pointers } pairs with err | q
    · rw [hbe] at h
      exact absurd h (by simp)
    simp only [hbe] at h
    obtain ⟨s₁, ids⟩ := q
    obtain ⟨e1, e2, e3, e4, e5, e6, e7, e8, e9, e10, e11, e12⟩ := buildEdges_ok hbe
    simp only at e1 e2 e3 e4 e5 e6 e7 e8 e9 e10 e11
    have hlen : pairs.length = (v0 :: t).length := by
      have := mapVP_length hmv
      rw [this, pairUp_length]
      simp
    have hlpos : 0 < pairs.length := by simp [hlen]
    rcases hids : ids with _ | ⟨e0, ids'⟩
    · rw [hids] at e10
      have := congrArg List.length e10
      simp [List.length_range'] at this
      omega
    simp only [hids] at h
    simp only [Except.ok.injEq] at h
    subst h
    have he0 : e0 = s.nextEdge := by
      rw [hids] at e10
      rcases hlp : pairs.length with _ | pl
      · omega
      · rw [hlp, List.range'_succ] at e10
        injection e10 with hh1 hh2
    have hmv' : mapVP vm (wrapPairs (v0 :: t)) = some pairs := by
      simpa [wrapPairs] using hmv
    refine ⟨pairs, by simp, hmv', hlen, e11, e12, by simp [e1], by simp [e2], by simp [e3],
      by simp [e4], by simp [e5, ← hids, e10], by simp [e6], by simp [e7, he0], by simp [e8],
      by simp [e9]⟩

/-- Relates the input faces to their lists of mapped vertex pairs (one list
per face, in order). -/
def facesMapped (vm : List (Nat × Nat)) : List (List Nat) → List (List (Nat × Nat)) → Prop
  | [], [] => True
  | f :: fs, ps :: pss =>
    f ≠ [] ∧ mapVP vm (wrapPairs f) = some ps ∧ ps.length = f.length ∧ facesMapped vm fs pss
  | _, _ => False

theorem alookup_append_eq_none {α β : Type} [DecidableEq α] {l₁ l₂ : List (α × β)} {key : α} :
    alookup (l₁ ++ l₂) key = none ↔ alookup l₁ key = none ∧ alookup l₂ key = none := by
  rw [alookup_append]
  rcases h : alookup l₁ key with _ | v <;> simp [h]

theorem buildFaces_ok {vm : List (Nat × Nat)} :
    ∀ {fs : List (List Nat)} {idx : Nat} {s S : BState},
      buildFaces vm idx s fs = .ok S →
      ∃ pss : List (List (Nat × Nat)),
        facesMapped vm fs pss ∧
        S.nextEdge = s.nextEdge + totalLen pss ∧
        S.nextFace = s.nextFace + fs.length ∧
        S.edge_root = (rootBlocks s.nextEdge pss).reverse ++ s.edge_root ∧
        S.edge_face = (faceBlocks s.nextEdge s.nextFace pss).reverse ++ s.edge_face ∧
        S.edge_next = (nextBlocks s.nextEdge pss).reverse ++ s.edge_next ∧
        S.vert_to_edge = (vteBlocks s.nextEdge pss).reverse ++ s.vert_to_edge ∧
        S.face_to_edge = (fteBlocks s.nextFace s.nextEdge pss).reverse ++ s.face_to_edge ∧
        S.face_pointers = (fpBlocks idx s.nextFace pss).reverse ++ s.face_pointers ∧
        S.endpoints = (epBlocks s.nextEdge pss).reverse ++ s.endpoints ∧
        pss.flatten.Nodup ∧ (∀ p ∈ pss.flatten, alookup s.endpoints p = none) := by
  intro fs
  induction fs with
  | nil =>
    intro idx s S h
    simp only [buildFaces, Except.ok.injEq] at h
    subst h
    exact ⟨[], trivial, by simp [totalLen], by simp, by simp [rootBlocks], by simp [faceBlocks],
      by simp [nextBlocks], by simp [vteBlocks], by simp [fteBlocks], by simp [fpBlocks],
      by simp [epBlocks], by simp, by simp⟩
  | cons face rest ih =>
    intro idx s S h
    simp only [buildFaces] at h
    rcases hpf : processFace vm idx s face with err | s'
    · rw [hpf] at h
      exact absurd h (by simp)
    simp only [hpf] at h
    obtain ⟨ps, hne, hmv, hlen, hfresh, hnd, p1, p2, p3, p4, p5, p6, p7, p8, p9⟩ :=
      processFace_ok hpf
    obtain ⟨pss', fm', q1, q2, q3, q4, q5, q6, q7, q8, q9, q10, q11⟩ := ih h
    refine ⟨ps :: pss', ⟨hne, hmv, hlen, fm'⟩, ?_, ?_, ?_, ?_, ?_, ?_, ?_, ?_, ?_, ?_, ?_⟩
    · rw [q1, p1]
      simp [totalLen]
      omega
    · rw [q2, p2]
      simp [Nat.add_assoc, Nat.add_comm 1 rest.length]
    · rw [q3, p3, p1]
      simp [rootBlocks, List.reverse_append, List.append_assoc]
    · rw [q4, p4, p1, p2]
      simp [faceBlocks, List.reverse_append, List.append_assoc]
    · rw [q5, p5, p1]
      simp [nextBlocks, List.reverse_append, List.append_assoc]
    · rw [q6, p6, p1]
      simp [vteBlocks, List.reverse_append, List.append_assoc]
    · rw [q7, p7, p1, p2]
      simp [fteBlocks, List.reverse_append, List.append_assoc]
    · rw [q8, p8, p2]
      simp [fpBlocks, List.reverse_append, List.append_assoc]
    · rw [q9, p9, p1]
      simp [epBlocks, List.reverse_append, List.append_assoc]
    · rw [List.flatten_cons, List.nodup_append]
      refine ⟨hnd, q10, ?_⟩
      intro p hp hp'
      have := q11 p hp'
      rw [p9] at this
      rw [alookup_append_eq_none] at this
      have hkeys := alookup_eq_none_iff.mp this.1
      rw [List.map_reverse, epBlock_keys] at hkeys
      exact hkeys (by simpa using hp)
    · intro p hp
      rw [List.flatten_cons] at hp
      rcases List.mem_append.mp hp with h' | h'
      · exact hfresh p h'
      · have := q11 p h'
        rw [p9, alookup_append_eq_none] at this
        exact this.2

/-! ## Representatives and twins -/

theorem buildReps_lookup {ids : List Nat} {m r : List (Nat × Nat)}
    (h : buildReps ids m = some r) :
    ∀ v ∈ ids, alookup r v = alookup m v ∧ (alookup m v).isSome := by
  induction ids generalizing r with
  | nil => simp
  | cons v0 t ih =>
    simp only [buildReps] at h
    rcases h0 : alookup m v0 with _ | e <;> rw [h0] at h
    · exact absurd h (by simp)
    rcases hrec : buildReps t m with _ | rest <;> rw [hrec] at h
    · exact absurd h (by simp)
    simp only [Option.some.injEq] at h
    subst h
    intro v hv
    by_cases hvv : v = v0
    · subst hvv
      simp [alookup, h0]
    · rcases List.mem_cons.mp hv with h' | h'
      · exact absurd h' hvv
      · simpa [alookup, hvv] using ih hrec v h'

theorem buildReps_mem {ids : List Nat} {m r : List (Nat × Nat)}
    (h : buildReps ids m = some r) :
    ∀ q ∈ r, q.1 ∈ ids ∧ alookup m q.1 = some q.2 := by
  induction ids generalizing r with
  | nil =>
    simp only [buildReps, Option.some.injEq] at h
    subst h
    simp
  | cons v0 t ih =>
    simp only [buildReps] at h
    rcases h0 : alookup m v0 with _ | e <;> rw [h0] at h
    · exact absurd h (by simp)
    rcases hrec : buildReps t m with _ | rest <;> rw [hrec] at h
    · exact absurd h (by simp)
    simp only [Option.some.injEq] at h
    subst h
    intro q hq
    rcases List.mem_cons.mp hq with h' | h'
    · subst h'
      exact ⟨by simp, h0⟩
    · obtain ⟨hm, hl⟩ := ih hrec q h'
      exact ⟨List.mem_cons_of_mem _ hm, hl⟩

theorem buildReps_total {ids : List Nat} {m : List (Nat × Nat)}
    (h : ∀ v ∈ ids, (alookup m v).isSome) : ∃ r, buildReps ids m = some r := by
  induction ids with
  | nil => exact ⟨[], rfl⟩
  | cons v0 t ih =>
    obtain ⟨r, hr⟩ := ih fun v hv => h v (List.mem_cons_of_mem _ hv)
    have h0 := h v0 (by simp)
    rcases hl : alookup m v0 with _ | e
    · rw [hl] at h0; simp at h0
    · exact ⟨(v0, e) :: r, by simp [buildReps, hl, hr]⟩

/-- The mutual-twin relation `buildTwins` establishes: `x` and `y` hold
reversed endpoint pairs. -/
def TwinGood (eps : List ((Nat × Nat) × Nat)) (x y : Nat) : Prop :=
  ∃ a b, ((a, b), x) ∈ eps ∧ ((b, a), y) ∈ eps

theorem buildTwins_acc_sub {eps : List ((Nat × Nat) × Nat)} :
    ∀ {rem : List ((Nat × Nat) × Nat)} {acc tw : List (Nat × Nat)},
      buildTwins eps rem acc = some tw → ∀ q ∈ acc, q ∈ tw := by
  intro rem
  induction rem with
  | nil =>
    intro acc tw h
    simp only [buildTwins, Option.some.injEq] at h
    subst h
    exact fun q hq => hq
  | cons entry rest ih =>
    intro acc tw h
    obtain ⟨⟨a, b⟩, e⟩ := entry
    simp only [buildTwins] at h
    rcases hl : alookup eps (b, a) with _ | t <;> rw [hl] at h
    · exact absurd h (by simp)
    intro q hq
    exact ih h q (by simp [hq])

theorem buildTwins_good {eps : List ((Nat × Nat) × Nat)} :
    ∀ {rem : List ((Nat × Nat) × Nat)} {acc tw : List (Nat × Nat)},
      (∀ q ∈ rem, q ∈ eps) → (∀ q ∈ acc, TwinGood eps q.1 q.2) →
      buildTwins eps rem acc = some tw → ∀ q ∈ tw, TwinGood eps q.1 q.2 := by
  intro rem
  induction rem with
  | nil =>
    intro acc tw _ hacc h
    simp only [buildTwins, Option.some.injEq] at h
    subst h
    exact hacc
  | cons entry rest ih =>
    intro acc tw hrem hacc h
    obtain ⟨⟨a, b⟩, e⟩ := entry
    simp only [buildTwins] at h
    rcases hl : alookup eps (b, a) with _ | t <;> rw [hl] at h
    · exact absurd h (by simp)
    refine ih (fun q hq => hrem q (List.mem_cons_of_mem _ hq)) ?_ h
    intro q hq
    rcases List.mem_cons.mp hq with h' | h'
    · subst h'
      exact ⟨b, a, alookup_mem hl, hrem ((a, b), e) (by simp)⟩
    rcases List.mem_cons.mp h' with h'' | h''
    · subst h''
      exact ⟨a, b, hrem ((a, b), e) (by simp), alookup_mem hl⟩
    · exact hacc q h''

theorem buildTwins_keycover {eps : List ((Nat × Nat) × Nat)} :
    ∀ {rem : List ((Nat × Nat) × Nat)} {acc tw : List (Nat × Nat)},
      buildTwins eps rem acc = some tw → ∀ q ∈ rem, ∃ t, (q.2, t) ∈ tw := by
  intro rem
  induction rem with
  | nil => simp
  | cons entry rest ih =>
    intro acc tw h q hq
    obtain ⟨⟨a, b⟩, e⟩ := entry
    simp only [buildTwins] at h
    rcases hl : alookup eps (b, a) with _ | t <;> rw [hl] at h
    · exact absurd h (by simp)
    rcases List.mem_cons.mp hq with h' | h'
    · subst h'
      exact ⟨t, buildTwins_acc_sub h (e, t) (by simp)⟩
    · exact ih h q h'

theorem buildTwins_total {eps : List ((Nat × Nat) × Nat)} :
    ∀ {rem : List ((Nat × Nat) × Nat)} {acc : List (Nat × Nat)},
      (∀ q ∈ rem, (alookup eps (q.1.2, q.1.1)).isSome) →
      ∃ tw, buildTwins eps rem acc = some tw := by
  intro rem
  induction rem with
  | nil => exact fun _ => ⟨_, rfl⟩
  | cons entry rest ih =>
    intro acc hrem
    obtain ⟨⟨a, b⟩, e⟩ := entry
    have h0 := hrem ((a, b), e) (by simp)
    simp only at h0
    rcases hl : alookup eps (b, a) with _ | t
    · rw [hl] at h0; simp at h0
    · obtain ⟨tw, htw⟩ := @ih ((t, e) :: (e, t) :: acc)
        (fun q hq => hrem q (List.mem_cons_of_mem _ hq))
      exact ⟨tw, by simp [buildTwins, hl, htw]⟩

theorem mem_keys_unique {α β : Type} {l : List (α × β)} (h : (l.map Prod.fst).Nodup)
    {k : α} {v1 v2 : β} (h1 : (k, v1) ∈ l) (h2 : (k, v2) ∈ l) : v1 = v2 := by
  induction l with
  | nil => simp at h1
  | cons p t ih =>
    simp only [List.map_cons, List.nodup_cons] at h
    rcases List.mem_cons.mp h1 with e1 | e1 <;> rcases List.mem_cons.mp h2 with e2 | e2
    · cases e1
      injection e2 with ek ev
      exact ev.symm
    · exact absurd (List.mem_map.mpr ⟨(k, v2), e2, by rw [← e1]⟩) h.1
    · exact absurd (List.mem_map.mpr ⟨(k, v1), e1, by rw [← e2]⟩) h.1
    · exact ih h.2 e1 e2

theorem mem_vals_unique {α β : Type} {l : List (α × β)} (h : (l.map Prod.snd).Nodup)
    {k1 k2 : α} {v : β} (h1 : (k1, v) ∈ l) (h2 : (k2, v) ∈ l) : k1 = k2 := by
  induction l with
  | nil => simp at h1
  | cons p t ih =>
    simp only [List.map_cons, List.nodup_cons] at h
    rcases List.mem_cons.mp h1 with e1 | e1 <;> rcases List.mem_cons.mp h2 with e2 | e2
    · cases e1
      injection e2 with ek ev
      exact ek.symm
    · exact absurd (List.mem_map.mpr ⟨(k2, v), e2, by rw [← e1]⟩) h.1
    · exact absurd (List.mem_map.mpr ⟨(k1, v), e1, by rw [← e2]⟩) h.1
    · exact ih h.2 e1 e2

/-- On success, `buildTwins` links every edge of the endpoint map with the
unique edge holding the reversed pair, in both directions. -/
theorem twins_spec {eps : List ((Nat × Nat) × Nat)} {tw : List (Nat × Nat)}
    (hk : (eps.map Prod.fst).Nodup) (hv : (eps.map Prod.snd).Nodup)
    (h : buildTwins eps eps [] = some tw) :
    ∀ a b e, ((a, b), e) ∈ eps →
      ∃ t, alookup tw e = some t ∧ ((b, a), t) ∈ eps ∧ alookup tw t = some e := by
  intro a b e he
  obtain ⟨t0, ht0⟩ := buildTwins_keycover h ((a, b), e) he
  have hsome : (alookup tw e).isSome := alookup_isSome_of_mem ht0
  rcases hl : alookup tw e with _ | t
  · rw [hl] at hsome; simp at hsome
  obtain ⟨c, d, hce, hdt⟩ := buildTwins_good (fun q hq => hq) (by simp) h (e, t) (alookup_mem hl)
  have hcd : (c, d) = (a, b) := mem_vals_unique hv (by simpa using hce) he
  injection hcd with hc hd
  have hdt2 : ((b, a), t) ∈ eps := by
    rw [← hc, ← hd]
    simpa using hdt
  refine ⟨t, rfl, hdt2, ?_⟩
  obtain ⟨t1, ht1⟩ := buildTwins_keycover h ((b, a), t) hdt2
  have hsome2 : (alookup tw t).isSome := alookup_isSome_of_mem ht1
  rcases hl2 : alookup tw t with _ | t'
  · rw [hl2] at hsome2; simp at hsome2
  obtain ⟨u, w, hut, hwt'⟩ := buildTwins_good (fun q hq => hq) (by simp) h (t, t') (alookup_mem hl2)
  have huw : (u, w) = (b, a) := mem_vals_unique hv (by simpa using hut) hdt2
  injection huw with hu hw
  have hwt2 : ((a, b), t') ∈ eps := by
    rw [← hu, ← hw]
    simpa using hwt'
  have ht'e : t' = e := mem_keys_unique hk hwt2 he
  rw [ht'e]

/-! ## Vertex pointers and pair lists -/

theorem getD_mem_of_lt {α : Type} {l : List α} {j : Nat} (h : j < l.length) (d : α) :
    l.getD j d ∈ l := by
  rw [List.getD_eq_getElem _ _ h]
  exact List.getElem_mem h

theorem mem_uniqueAux {x : Nat} : ∀ {l seen : List Nat}, x ∈ uniqueAux seen l ↔ x ∈ l ∧ x ∉ seen := by
  intro l
  induction l with
  | nil => simp [uniqueAux]
  | cons y t ih =>
    intro seen
    by_cases hy : y ∈ seen
    · rw [uniqueAux, if_pos hy, ih]
      constructor
      · rintro ⟨h1, h2⟩
        exact ⟨List.mem_cons_of_mem _ h1, h2⟩
      · rintro ⟨h1, h2⟩
        rcases List.mem_cons.mp h1 with rfl | h1
        · exact absurd hy h2
        · exact ⟨h1, h2⟩
    · rw [uniqueAux, if_neg hy]
      constructor
      · intro hm
        rcases List.mem_cons.mp hm with rfl | hm
        · exact ⟨by simp, hy⟩
        · obtain ⟨h1, h2⟩ := ih.mp hm
          refine ⟨List.mem_cons_of_mem _ h1, fun hc => h2 (List.mem_cons_of_mem _ hc)⟩
      · rintro ⟨h1, h2⟩
        rcases List.mem_cons.mp h1 with rfl | h1
        · simp
        · by_cases hxy : x = y
          · simp [hxy]
          · exact List.mem_cons_of_mem _ (ih.mpr ⟨h1, by simp [hxy, h2]⟩)

theorem nodup_uniqueAux : ∀ (l seen : List Nat), (uniqueAux seen l).Nodup := by
  intro l
  induction l with
  | nil => intro seen; simp [uniqueAux]
  | cons y t ih =>
    intro seen
    by_cases hy : y ∈ seen
    · rw [uniqueAux, if_pos hy]
      exact ih seen
    · rw [uniqueAux, if_neg hy]
      refine List.nodup_cons.mpr ⟨?_, ih (y :: seen)⟩
      intro hc
      exact (mem_uniqueAux.mp hc).2 (by simp)

theorem mem_uniqueFirst {x : Nat} {l : List Nat} : x ∈ uniqueFirst l ↔ x ∈ l := by
  rw [uniqueFirst, mem_uniqueAux]
  simp

theorem nodup_uniqueFirst (l : List Nat) : (uniqueFirst l).Nodup := nodup_uniqueAux l []

theorem enumKeys_lookup {l : List Nat} :
    ∀ {n x i : Nat}, alookup (enumKeys n l) x = some i →
      n ≤ i ∧ i - n < l.length ∧ l.getD (i - n) 0 = x := by
  induction l with
  | nil => intro n x i h; simp [enumKeys, alookup] at h
  | cons y t ih =>
    intro n x i h
    rw [enumKeys, alookup_cons] at h
    by_cases hx : x = y
    · rw [if_pos hx] at h
      injection h with h
      subst h
      simp [hx, Nat.sub_self]
    · rw [if_neg hx] at h
      obtain ⟨h1, h2, h3⟩ := ih h
      have : i - n = (i - (n + 1)) + 1 := by omega
      refine ⟨by omega, by simp; omega, ?_⟩
      rw [this, List.getD_cons_succ]
      exact h3

theorem enumKeys_isSome {l : List Nat} {x : Nat} (h : x ∈ l) (n : Nat) :
    (alookup (enumKeys n l) x).isSome := by
  induction l generalizing n with
  | nil => simp at h
  | cons y t ih =>
    rw [enumKeys, alookup_cons]
    by_cases hx : x = y
    · simp [hx]
    · rcases List.mem_cons.mp h with rfl | h'
      · simp at hx
      · simp only [if_neg hx]
        exact ih h' (n + 1)

theorem enumKeys_lookup_nodup {l : List Nat} (hnd : l.Nodup) :
    ∀ {n j : Nat}, j < l.length → alookup (enumKeys n l) (l.getD j 0) = some (n + j) := by
  induction l with
  | nil => intro n j h; simp at h
  | cons y t ih =>
    intro n j h
    rcases List.nodup_cons.mp hnd with ⟨hy, hnd'⟩
    cases j with
    | zero => simp [enumKeys, alookup]
    | succ j' =>
      have hj' : j' < t.length := by simpa using h
      have hmem : t.getD j' 0 ∈ t := getD_mem_of_lt hj' 0
      have hne : t.getD j' 0 ≠ y := fun hc => hy (hc ▸ hmem)
      rw [List.getD_cons_succ, enumKeys, alookup_cons, if_neg hne]
      have hrec := ih hnd' (n := n + 1) hj'
      rw [hrec]
      congr 1
      omega

theorem enumKeys_vals (n : Nat) (l : List Nat) :
    (enumKeys n l).map Prod.snd = List.range' n l.length := by
  induction l generalizing n with
  | nil => simp [enumKeys]
  | cons y t ih => simp [enumKeys, List.range'_succ, ih]

theorem enumKeys_keys (n : Nat) (l : List Nat) : (enumKeys n l).map Prod.fst = l := by
  induction l generalizing n with
  | nil => simp [enumKeys]
  | cons y t ih => simp [enumKeys, ih]

theorem enumKeys_inj {l : List Nat} {n x y i : Nat}
    (hx : alookup (enumKeys n l) x = some i) (hy : alookup (enumKeys n l) y = some i) :
    x = y := by
  obtain ⟨_, _, h3⟩ := enumKeys_lookup hx
  obtain ⟨_, _, h3'⟩ := enumKeys_lookup hy
  rw [← h3, ← h3']

theorem mapVP_getD {vm : List (Nat × Nat)} :
    ∀ {l r : List (Nat × Nat)}, mapVP vm l = some r →
      ∀ j, j < l.length →
        alookup vm (l.getD j (0, 0)).1 = some (r.getD j (0, 0)).1 ∧
        alookup vm (l.getD j (0, 0)).2 = some (r.getD j (0, 0)).2 := by
  intro l
  induction l with
  | nil => intro r h j hj; simp at hj
  | cons p t ih =>
    intro r h j hj
    obtain ⟨a, b⟩ := p
    simp only [mapVP] at h
    rcases ha : alookup vm a with _ | a' <;> rw [ha] at h
    · exact absurd h (by simp)
    rcases hb : alookup vm b with _ | b' <;> rw [hb] at h
    · exact absurd h (by simp)
    rcases hr : mapVP vm t with _ | rest <;> rw [hr] at h
    · exact absurd h (by simp)
    simp only [Option.some.injEq] at h
    subst h
    cases j with
    | zero => simpa using ⟨ha, hb⟩
    | succ j' => simpa using ih hr j' (by simpa using hj)

theorem mapVP_mem_bwd {vm : List (Nat × Nat)} :
    ∀ {l r : List (Nat × Nat)}, mapVP vm l = some r → ∀ q ∈ r,
      ∃ p ∈ l, alookup vm p.1 = some q.1 ∧ alookup vm p.2 = some q.2 := by
  intro l
  induction l with
  | nil =>
    intro r h q hq
    simp only [mapVP, Option.some.injEq] at h
    subst h
    simp at hq
  | cons p t ih =>
    intro r h q hq
    obtain ⟨a, b⟩ := p
    simp only [mapVP] at h
    rcases ha : alookup vm a with _ | a' <;> rw [ha] at h
    · exact absurd h (by simp)
    rcases hb : alookup vm b with _ | b' <;> rw [hb] at h
    · exact absurd h (by simp)
    rcases hr : mapVP vm t with _ | rest <;> rw [hr] at h
    · exact absurd h (by simp)
    simp only [Option.some.injEq] at h
    subst h
    rcases List.mem_cons.mp hq with rfl | hq'
    · exact ⟨(a, b), by simp, ha, hb⟩
    · obtain ⟨p', hp', h1, h2⟩ := ih hr q hq'
      exact ⟨p', List.mem_cons_of_mem _ hp', h1, h2⟩

theorem mapVP_mem_fwd {vm : List (Nat × Nat)} :
    ∀ {l r : List (Nat × Nat)}, mapVP vm l = some r → ∀ p ∈ l,
      ∃ q ∈ r, alookup vm p.1 = some q.1 ∧ alookup vm p.2 = some q.2 := by
  intro l
  induction l with
  | nil => intro r h p hp; simp at hp
  | cons p0 t ih =>
    intro r h p hp
    obtain ⟨a, b⟩ := p0
    simp only [mapVP] at h
    rcases ha : alookup vm a with _ | a' <;> rw [ha] at h
    · exact absurd h (by simp)
    rcases hb : alookup vm b with _ | b' <;> rw [hb] at h
    · exact absurd h (by simp)
    rcases hr : mapVP vm t with _ | rest <;> rw [hr] at h
    · exact absurd h (by simp)
    simp only [Option.some.injEq] at h
    subst h
    rcases List.mem_cons.mp hp with rfl | hp'
    · exact ⟨(a', b'), by simp, ha, hb⟩
    · obtain ⟨q, hq, h1, h2⟩ := ih hr p hp'
      exact ⟨q, List.mem_cons_of_mem _ hq, h1, h2⟩

theorem mapVP_total {vm : List (Nat × Nat)} :
    ∀ {l : List (Nat × Nat)},
      (∀ p ∈ l, (alookup vm p.1).isSome ∧ (alookup vm p.2).isSome) →
      ∃ r, mapVP vm l = some r := by
  intro l
  induction l with
  | nil => exact fun _ => ⟨[], rfl⟩
  | cons p t ih =>
    intro h
    obtain ⟨a, b⟩ := p
    obtain ⟨ha, hb⟩ := h (a, b) (by simp)
    obtain ⟨r, hr⟩ := ih fun q hq => h q (List.mem_cons_of_mem _ hq)
    rcases ha' : alookup vm a with _ | a'
    · rw [ha'] at ha; simp at ha
    rcases hb' : alookup vm b with _ | b'
    · rw [hb'] at hb; simp at hb
    exact ⟨(a', b') :: r, by simp [mapVP, ha', hb', hr]⟩

theorem mapVP_append {vm : List (Nat × Nat)} :
    ∀ {l₁ l₂ r₁ r₂ : List (Nat × Nat)}, mapVP vm l₁ = some r₁ → mapVP vm l₂ = some r₂ →
      mapVP vm (l₁ ++ l₂) = some (r₁ ++ r₂) := by
  intro l₁
  induction l₁ with
  | nil =>
    intro l₂ r₁ r₂ h1 h2
    simp only [mapVP, Option.some.injEq] at h1
    subst h1
    simpa using h2
  | cons p t ih =>
    intro l₂ r₁ r₂ h1 h2
    obtain ⟨a, b⟩ := p
    simp only [mapVP] at h1
    rcases ha : alookup vm a with _ | a' <;> rw [ha] at h1
    · exact absurd h1 (by simp)
    rcases hb : alookup vm b with _ | b' <;> rw [hb] at h1
    · exact absurd h1 (by simp)
    rcases hr : mapVP vm t with _ | rest <;> rw [hr] at h1
    · exact absurd h1 (by simp)
    simp only [Option.some.injEq] at h1
    subst h1
    have := ih hr h2
    simp [mapVP, ha, hb, this]

theorem mapVP_nodup_rev {vm : List (Nat × Nat)} :
    ∀ {l r : List (Nat × Nat)}, mapVP vm l = some r → r.Nodup → l.Nodup := by
  intro l
  induction l with
  | nil => intro r _ _; simp
  | cons p t ih =>
    intro r h hnd
    obtain ⟨a, b⟩ := p
    simp only [mapVP] at h
    rcases ha : alookup vm a with _ | a' <;> rw [ha] at h
    · exact absurd h (by simp)
    rcases hb : alookup vm b with _ | b' <;> rw [hb] at h
    · exact absurd h (by simp)
    rcases hr : mapVP vm t with _ | rest <;> rw [hr] at h
    · exact absurd h (by simp)
    simp only [Option.some.injEq] at h
    subst h
    rcases List.nodup_cons.mp hnd with ⟨hni, hnd'⟩
    refine List.nodup_cons.mpr ⟨?_, ih hr hnd'⟩
    intro hmem
    obtain ⟨q, hq, h1, h2⟩ := mapVP_mem_fwd hr (a, b) hmem
    rw [ha] at h1
    rw [hb] at h2
    injection h1 with h1
    injection h2 with h2
    obtain ⟨q1, q2⟩ := q
    simp only at h1 h2
    subst h1; subst h2
    exact hni hq

theorem pairUp_getD : ∀ (c : List Nat) (j : Nat), j + 1 < c.length →
    (pairUp c).getD j (0, 0) = (c.getD j 0, c.getD (j + 1) 0) := by
  intro c
  induction c with
  | nil => intro j h; simp at h
  | cons a t ih =>
    intro j h
    cases t with
    | nil => simp at h
    | cons b t' =>
      cases j with
      | zero => simp [pairUp]
      | succ j' =>
        rw [pairUp]
        simpa using ih j' (by simpa using h)

theorem pairUp_fst : ∀ c : List Nat, (pairUp c).map Prod.fst = c.dropLast := by
  intro c
  induction c with
  | nil => simp [pairUp]
  | cons a t ih =>
    cases t with
    | nil => simp [pairUp]
    | cons b t' => simpa [pairUp] using ih

theorem wrapPairs_fst (f : List Nat) : (wrapPairs f).map Prod.fst = f := by
  cases f with
  | nil => simp [wrapPairs]
  | cons v0 t =>
    rw [wrapPairs, pairUp_fst]
    exact List.dropLast_concat ..

/-- The raw chain property: inside one face, the second endpoint of pair `j`
is the first endpoint of the (cyclically) following pair. -/
theorem wrapPairs_chain {f : List Nat} (hne : f ≠ []) {j : Nat} (hj : j < f.length) :
    ((wrapPairs f).getD j (0, 0)).2 = ((wrapPairs f).getD ((j + 1) % f.length) (0, 0)).1 := by
  cases f with
  | nil => exact absurd rfl hne
  | cons v0 t =>
    rw [wrapPairs]
    have hlen : ((v0 :: t) ++ [v0]).length = (v0 :: t).length + 1 := by simp
    have hj1 : j + 1 < ((v0 :: t) ++ [v0]).length := by
      rw [hlen]
      omega
    rw [pairUp_getD _ j hj1]
    by_cases hlast : j + 1 = (v0 :: t).length
    · have hmod : (j + 1) % (v0 :: t).length = 0 := by
        rw [hlast, Nat.mod_self]
      rw [hmod, pairUp_getD _ 0 (by rw [hlen]; simp)]
      have h1 : ((v0 :: t) ++ [v0]).getD (j + 1) 0 = v0 := by
        rw [hlast]
        rw [List.getD_eq_getElem _ _ (by rw [hlen]; omega)]
        rw [List.getElem_append_right (by omega)]
        simp
      have h2 : ((v0 :: t) ++ [v0]).getD 0 0 = v0 := by simp
      rw [h1, h2]
    · have hmod : (j + 1) % (v0 :: t).length = j + 1 := Nat.mod_eq_of_lt (by omega)
      rw [hmod, pairUp_getD _ (j + 1) (by rw [hlen]; omega)]

/-! ## Positions inside the concatenated blocks -/

/-- Offset of face `i`'s first edge id (sum of the earlier faces' lengths). -/
def blockOff : List (List (Nat × Nat)) → Nat → Nat
  | _, 0 => 0
  | [], _ + 1 => 0
  | ps :: pss, i + 1 => ps.length + blockOff pss i

/-- Number of boundary pairs (= edges) of face `i`. -/
def faceLen (pss : List (List (Nat × Nat))) (i : Nat) : Nat := (pss.getD i []).length

/-- The `j`-th mapped pair of face `i`. -/
def pairAt (pss : List (List (Nat × Nat))) (i j : Nat) : Nat × Nat :=
  (pss.getD i []).getD j (0, 0)

theorem blockOff_le_totalLen : ∀ (pss : List (List (Nat × Nat))) (i : Nat),
    i < pss.length → blockOff pss i + faceLen pss i ≤ totalLen pss := by
  intro pss
  induction pss with
  | nil => intro i h; simp at h
  | cons ps rest ih =>
    intro i h
    cases i with
    | zero => simp [blockOff, faceLen, totalLen]
    | succ i' =>
      have := ih i' (by simpa using h)
      simp only [blockOff, faceLen, totalLen, List.getD_cons_succ] at *
      omega

theorem edge_decompose : ∀ (pss : List (List (Nat × Nat))) (e : Nat), e < totalLen pss →
    ∃ i j, i < pss.length ∧ j < faceLen pss i ∧ e = blockOff pss i + j := by
  intro pss
  induction pss with
  | nil => intro e h; simp [totalLen] at h
  | cons ps rest ih =>
    intro e h
    by_cases he : e < ps.length
    · exact ⟨0, e, by simp, by simpa [faceLen] using he, by simp [blockOff]⟩
    · rw [totalLen] at h
      obtain ⟨i', j, h1, h2, h3⟩ := ih (e - ps.length) (by omega)
      refine ⟨i' + 1, j, by simpa using h1, by simpa [faceLen] using h2, ?_⟩
      simp only [blockOff]
      omega

theorem rootBlocks_keys : ∀ (n : Nat) (pss : List (List (Nat × Nat))),
    (rootBlocks n pss).map Prod.fst = List.range' n (totalLen pss) := by
  intro n pss
  induction pss generalizing n with
  | nil => simp [rootBlocks, totalLen]
  | cons ps rest ih =>
    rw [rootBlocks, totalLen, List.map_append, rootBlock_keys, ih,
      Nat.add_comm ps.length (totalLen rest), ← List.range'_append n ps.length (totalLen rest) 1]
    simp

theorem faceBlocks_keys : ∀ (n fid : Nat) (pss : List (List (Nat × Nat))),
    (faceBlocks n fid pss).map Prod.fst = List.range' n (totalLen pss) := by
  intro n fid pss
  induction pss generalizing n fid with
  | nil => simp [faceBlocks, totalLen]
  | cons ps rest ih =>
    rw [faceBlocks, totalLen, List.map_append, faceBlock_keys, ih,
      Nat.add_comm ps.length (totalLen rest), ← List.range'_append n ps.length (totalLen rest) 1]
    simp

theorem nextBlocks_keys : ∀ (n : Nat) (pss : List (List (Nat × Nat))),
    (nextBlocks n pss).map Prod.fst = List.range' n (totalLen pss) := by
  intro n pss
  induction pss generalizing n with
  | nil => simp [nextBlocks, totalLen]
  | cons ps rest ih =>
    rw [nextBlocks, totalLen, List.map_append, cyclicNext_keys, ih,
      Nat.add_comm ps.length (totalLen rest),
      ← List.range'_append n ps.length (totalLen rest) 1]
    simp [List.length_range']

theorem epBlocks_keys : ∀ (n : Nat) (pss : List (List (Nat × Nat))),
    (epBlocks n pss).map Prod.fst = pss.flatten := by
  intro n pss
  induction pss generalizing n with
  | nil => simp [epBlocks]
  | cons ps rest ih => simp [epBlocks, epBlock_keys, ih]

theorem epBlocks_vals : ∀ (n : Nat) (pss : List (List (Nat × Nat))),
    (epBlocks n pss).map Prod.snd = List.range' n (totalLen pss) := by
  intro n pss
  induction pss generalizing n with
  | nil => simp [epBlocks, totalLen]
  | cons ps rest ih =>
    rw [epBlocks, totalLen, List.map_append, epBlock_vals, ih,
      Nat.add_comm ps.length (totalLen rest), ← List.range'_append n ps.length (totalLen rest) 1]
    simp

theorem vteBlocks_vals : ∀ (n : Nat) (pss : List (List (Nat × Nat))),
    (vteBlocks n pss).map Prod.snd = List.range' n (totalLen pss) := by
  intro n pss
  induction pss generalizing n with
  | nil => simp [vteBlocks, totalLen]
  | cons ps rest ih =>
    rw [vteBlocks, totalLen, List.map_append, vteBlock_vals, ih,
      Nat.add_comm ps.length (totalLen rest), ← List.range'_append n ps.length (totalLen rest) 1]
    simp

theorem vteBlocks_keys : ∀ (n : Nat) (pss : List (List (Nat × Nat))),
    (vteBlocks n pss).map Prod.fst = (pss.map (List.map Prod.fst)).flatten := by
  intro n pss
  induction pss generalizing n with
  | nil => simp [vteBlocks]
  | cons ps rest ih => simp [vteBlocks, vteBlock_keys, ih]

theorem fteBlocks_keys : ∀ (fid n : Nat) (pss : List (List (Nat × Nat))),
    (fteBlocks fid n pss).map Prod.fst = List.range' fid pss.length := by
  intro fid n pss
  induction pss generalizing fid n with
  | nil => simp [fteBlocks]
  | cons ps rest ih => simp [fteBlocks, List.range'_succ, ih]

theorem fpBlocks_keys : ∀ (idx fid : Nat) (pss : List (List (Nat × Nat))),
    (fpBlocks idx fid pss).map Prod.fst = List.range' idx pss.length := by
  intro idx fid pss
  induction pss generalizing idx fid with
  | nil => simp [fpBlocks]
  | cons ps rest ih => simp [fpBlocks, List.range'_succ, ih]

theorem notmem_range'_of_ge {n k key : Nat} (h : n + k ≤ key) : key ∉ List.range' n k := by
  intro hc
  rw [List.mem_range'] at hc
  obtain ⟨i, hi, rfl⟩ := hc
  omega

theorem rootBlocks_lookup : ∀ (pss : List (List (Nat × Nat))) (n i j : Nat),
    i < pss.length → j < faceLen pss i →
    alookup (rootBlocks n pss) (n + blockOff pss i + j) = some (pairAt pss i j).1 := by
  intro pss
  induction pss with
  | nil => intro n i j h; simp at h
  | cons ps rest ih =>
    intro n i j hi hj
    cases i with
    | zero =>
      simp only [blockOff, Nat.add_zero, faceLen, List.getD_cons_zero] at hj ⊢
      rw [rootBlocks, alookup_append, rootBlock_lookup n ps j hj]
      simp [pairAt]
    | succ i' =>
      have hi' : i' < rest.length := by simpa using hi
      have hj' : j < faceLen rest i' := by simpa [faceLen] using hj
      have hkey : n + blockOff (ps :: rest) (i' + 1) + j
          = (n + ps.length) + blockOff rest i' + j := by
        simp only [blockOff]
        omega
      have hnone : alookup (rootBlock n ps) (n + blockOff (ps :: rest) (i' + 1) + j) = none := by
        rw [alookup_eq_none_iff, rootBlock_keys]
        apply notmem_range'_of_ge
        simp only [blockOff]
        omega
      rw [rootBlocks, alookup_append, hnone, hkey, ih (n + ps.length) i' j hi' hj']
      simp [pairAt]

theorem faceBlocks_lookup : ∀ (pss : List (List (Nat × Nat))) (n fid i j : Nat),
    i < pss.length → j < faceLen pss i →
    alookup (faceBlocks n fid pss) (n + blockOff pss i + j) = some (fid + i) := by
  intro pss
  induction pss with
  | nil => intro n fid i j h; simp at h
  | cons ps rest ih =>
    intro n fid i j hi hj
    cases i with
    | zero =>
      simp only [blockOff, Nat.add_zero, faceLen, List.getD_cons_zero] at hj ⊢
      rw [faceBlocks, alookup_append, faceBlock_lookup n fid ps j hj]
    | succ i' =>
      have hi' : i' < rest.length := by simpa using hi
      have hj' : j < faceLen rest i' := by simpa [faceLen] using hj
      have hkey : n + blockOff (ps :: rest) (i' + 1) + j
          = (n + ps.length) + blockOff rest i' + j := by
        simp only [blockOff]
        omega
      have hnone : alookup (faceBlock n fid ps) (n + blockOff (ps :: rest) (i' + 1) + j)
          = none := by
        rw [alookup_eq_none_iff, faceBlock_keys]
        apply notmem_range'_of_ge
        simp only [blockOff]
        omega
      rw [faceBlocks, alookup_append, hnone, hkey, ih (n + ps.length) (fid + 1) i' j hi' hj']
      rw [show fid + 1 + i' = fid + (i' + 1) from by omega]

theorem nextBlocks_lookup : ∀ (pss : List (List (Nat × Nat))) (n i j : Nat),
    i < pss.length → j < faceLen pss i →
    alookup (nextBlocks n pss) (n + blockOff pss i + j)
      = some (n + blockOff pss i + (j + 1) % faceLen pss i) := by
  intro pss
  induction pss with
  | nil => intro n i j h; simp at h
  | cons ps rest ih =>
    intro n i j hi hj
    cases i with
    | zero =>
      simp only [blockOff, Nat.add_zero, faceLen, List.getD_cons_zero] at hj ⊢
      rw [nextBlocks, alookup_append, cyclicNext_range' n ps.length j (by omega) hj]
    | succ i' =>
      have hi' : i' < rest.length := by simpa using hi
      have hj' : j < faceLen rest i' := by simpa [faceLen] using hj
      have hkey : n + blockOff (ps :: rest) (i' + 1) + j
          = (n + ps.length) + blockOff rest i' + j := by
        simp only [blockOff]
        omega
      have hnone : alookup (cyclicNext (List.range' n ps.length))
          (n + blockOff (ps :: rest) (i' + 1) + j) = none := by
        rw [alookup_eq_none_iff, cyclicNext_keys]
        apply notmem_range'_of_ge
        simp only [blockOff]
        omega
      rw [nextBlocks, alookup_append, hnone, hkey, ih (n + ps.length) i' j hi' hj']
      have hface : faceLen (ps :: rest) (i' + 1) = faceLen rest i' := by
        simp [faceLen]
      have hoff : blockOff (ps :: rest) (i' + 1) = ps.length + blockOff rest i' := rfl
      rw [hface, hoff, show n + ps.length + blockOff rest i' = n + (ps.length + blockOff rest i') from by omega]

theorem epBlocks_mem_of : ∀ (pss : List (List (Nat × Nat))) (n i j : Nat),
    i < pss.length → j < faceLen pss i →
    (pairAt pss i j, n + blockOff pss i + j) ∈ epBlocks n pss := by
  intro pss
  induction pss with
  | nil => intro n i j h; simp at h
  | cons ps rest ih =>
    intro n i j hi hj
    cases i with
    | zero =>
      simp only [blockOff, Nat.add_zero, faceLen, List.getD_cons_zero] at hj ⊢
      rw [epBlocks]
      exact List.mem_append_left _ (by simpa [pairAt] using epBlock_mem_of n ps j hj)
    | succ i' =>
      have hi' : i' < rest.length := by simpa using hi
      have hj' : j < faceLen rest i' := by simpa [faceLen] using hj
      have := ih (n + ps.length) i' j hi' hj'
      rw [epBlocks]
      refine List.mem_append_right _ ?_
      have hkey : n + blockOff (ps :: rest) (i' + 1) + j
          = (n + ps.length) + blockOff rest i' + j := by
        simp only [blockOff]
        omega
      rw [hkey]
      simpa [pairAt] using this

theorem epBlocks_mem_inv : ∀ (pss : List (List (Nat × Nat))) (n : Nat)
    (q : (Nat × Nat) × Nat), q ∈ epBlocks n pss →
    ∃ i j, i < pss.length ∧ j < faceLen pss i ∧ q = (pairAt pss i j, n + blockOff pss i + j) := by
  intro pss
  induction pss with
  | nil => intro n q h; simp [epBlocks] at h
  | cons ps rest ih =>
    intro n q h
    rw [epBlocks] at h
    rcases List.mem_append.mp h with h' | h'
    · obtain ⟨j, hj, hq⟩ := epBlock_mem h'
      exact ⟨0, j, by simp, by simpa [faceLen] using hj, by simpa [pairAt, blockOff] using hq⟩
    · obtain ⟨i', j, hi', hj, hq⟩ := ih (n + ps.length) q h'
      refine ⟨i' + 1, j, by simpa using hi', by simpa [faceLen] using hj, ?_⟩
      rw [hq]
      have : (n + ps.length) + blockOff rest i' + j
          = n + blockOff (ps :: rest) (i' + 1) + j := by
        simp only [blockOff]
        omega
      simp [pairAt, this]

theorem fteBlocks_lookup : ∀ (pss : List (List (Nat × Nat))) (fid n i : Nat),
    i < pss.length →
    alookup (fteBlocks fid n pss) (fid + i) = some (n + blockOff pss i) := by
  intro pss
  induction pss with
  | nil => intro fid n i h; simp at h
  | cons ps rest ih =>
    intro fid n i hi
    cases i with
    | zero => simp [fteBlocks, alookup, blockOff]
    | succ i' =>
      have hi' : i' < rest.length := by simpa using hi
      rw [fteBlocks, alookup_cons, if_neg (by omega : ¬ fid + (i' + 1) = fid)]
      have harr : fid + (i' + 1) = (fid + 1) + i' := by omega
      rw [harr, ih (fid + 1) (n + ps.length) i' hi']
      have : (n + ps.length) + blockOff rest i' = n + blockOff (ps :: rest) (i' + 1) := by
        simp only [blockOff]
        omega
      rw [this]

theorem fteBlocks_mem_inv : ∀ (pss : List (List (Nat × Nat))) (fid n : Nat) (q : Nat × Nat),
    q ∈ fteBlocks fid n pss →
    ∃ i, i < pss.length ∧ q = (fid + i, n + blockOff pss i) := by
  intro pss
  induction pss with
  | nil => intro fid n q h; simp [fteBlocks] at h
  | cons ps rest ih =>
    intro fid n q h
    rw [fteBlocks] at h
    rcases List.mem_cons.mp h with h' | h'
    · exact ⟨0, by simp, by simpa [blockOff] using h'⟩
    · obtain ⟨i', hi', hq⟩ := ih (fid + 1) (n + ps.length) q h'
      refine ⟨i' + 1, by simpa using hi', ?_⟩
      rw [hq]
      have h1 : fid + 1 + i' = fid + (i' + 1) := by omega
      have h2 : (n + ps.length) + blockOff rest i' = n + blockOff (ps :: rest) (i' + 1) := by
        simp only [blockOff]
        omega
      rw [h1, h2]

theorem fpBlocks_mem : ∀ (pss : List (List (Nat × Nat))) (idx fid : Nat) (q : Nat × Nat),
    q ∈ fpBlocks idx fid pss ↔ ∃ i, i < pss.length ∧ q = (idx + i, fid + i) := by
  intro pss
  induction pss with
  | nil => intro idx fid q; simp [fpBlocks]
  | cons ps rest ih =>
    intro idx fid q
    rw [fpBlocks, List.mem_cons, ih]
    constructor
    · rintro (rfl | ⟨i, hi, rfl⟩)
      · exact ⟨0, by simp, by simp⟩
      · exact ⟨i + 1, by simpa using hi, by rw [show idx + 1 + i = idx + (i + 1) by omega,
          show fid + 1 + i = fid + (i + 1) by omega]⟩
    · rintro ⟨i, hi, rfl⟩
      cases i with
      | zero => simp
      | succ i' =>
        refine Or.inr ⟨i', by simpa using hi, ?_⟩
        rw [show idx + (i' + 1) = idx + 1 + i' by omega, show fid + (i' + 1) = fid + 1 + i' by omega]

/-! ## The shape of a successfully constructed mesh -/

/-- The vertex-pointer map `from_faces` builds. -/
def vmapOf (faces : List (List Nat)) : List (Nat × Nat) :=
  enumKeys 0 (uniqueFirst faces.flatten)

/-- Number of vertices `from_faces` allocates. -/
def nvOf (faces : List (List Nat)) : Nat := (uniqueFirst faces.flatten).length

theorem from_faces_ok_core {faces : List (List Nat)} {m : Douconel} {vm fm : List (Nat × Nat)}
    (h : from_faces faces = .ok m vm fm) :
    ∃ pss : List (List (Nat × Nat)),
      facesMapped (vmapOf faces) faces pss ∧
      vm = vmapOf faces ∧
      m.verts = List.range (nvOf faces) ∧
      m.edges = List.range (totalLen pss) ∧
      m.faces = List.range faces.length ∧
      m.edge_root = (rootBlocks 0 pss).reverse ∧
      m.edge_face = (faceBlocks 0 0 pss).reverse ∧
      m.edge_next = (nextBlocks 0 pss).reverse ∧
      fm = (fpBlocks 0 0 pss).reverse ∧
      buildReps (List.range (nvOf faces)) ((vteBlocks 0 pss).reverse) = some m.vert_rep ∧
      buildReps (List.range faces.length) ((fteBlocks 0 0 pss).reverse) = some m.face_rep ∧
      buildTwins ((epBlocks 0 pss).reverse) ((epBlocks 0 pss).reverse) [] = some m.edge_twin ∧
      pss.flatten.Nodup := by
  simp only [from_faces] at h
  rcases hbf : buildFaces (enumKeys 0 (uniqueFirst faces.flatten)) 0
      ⟨0, 0, [], [], [], [], [], [], []⟩ faces with err | s
  · rw [hbf] at h
    cases err <;> simp at h
  simp only [hbf] at h
  obtain ⟨pss, hfm, c1, c2, c3, c4, c5, c6, c7, c8, c9, c10, c11⟩ := buildFaces_ok hbf
  simp only [List.append_nil] at c1 c2 c3 c4 c5 c6 c7 c8 c9
  rcases hvr : buildReps (List.range (uniqueFirst faces.flatten).length) s.vert_to_edge
      with _ | vreps
  · rw [hvr] at h
    simp at h
  simp only [hvr] at h
  rcases hfr : buildReps (List.range s.nextFace) s.face_to_edge with _ | freps
  · rw [hfr] at h
    simp at h
  simp only [hfr] at h
  rcases htw : buildTwins s.endpoints s.endpoints [] with _ | twins
  · rw [htw] at h
    simp at h
  simp only [htw] at h
  simp only [FFResult.ok.injEq] at h
  obtain ⟨hm, hvm, hfm'⟩ := h
  subst hm
  subst hvm
  subst hfm'
  have hnf : s.nextFace = faces.length := by
    rw [c2]
    omega
  have hne : s.nextEdge = totalLen pss := by
    rw [c1]
    omega
  refine ⟨pss, hfm, rfl, rfl, by simp [hne], by simp [hnf], by simpa using c3,
    by simpa [hnf] using c4, by simpa [hne] using c5, by simpa using c8, ?_, ?_, ?_, c10⟩
  · rw [← c6]
    exact hvr
  · rw [← c7, ← hnf]
    exact hfr
  · rw [← c9]
    exact htw

theorem facesMapped_length {vm : List (Nat × Nat)} :
    ∀ {fs : List (List Nat)} {pss : List (List (Nat × Nat))},
      facesMapped vm fs pss → pss.length = fs.length := by
  intro fs
  induction fs with
  | nil =>
    intro pss h
    cases pss with
    | nil => rfl
    | cons a b => exact absurd h (by simp [facesMapped])
  | cons f fs' ih =>
    intro pss h
    cases pss with
    | nil => exact absurd h (by simp [facesMapped])
    | cons ps pss' =>
      obtain ⟨_, _, _, h4⟩ := h
      simpa using ih h4

theorem facesMapped_getD {vm : List (Nat × Nat)} :
    ∀ {fs : List (List Nat)} {pss : List (List (Nat × Nat))},
      facesMapped vm fs pss → ∀ i, i < fs.length →
        fs.getD i [] ≠ [] ∧ mapVP vm (wrapPairs (fs.getD i [])) = some (pss.getD i []) ∧
        (pss.getD i []).length = (fs.getD i []).length := by
  intro fs
  induction fs with
  | nil => intro pss h i hi; simp at hi
  | cons f fs' ih =>
    intro pss h i hi
    cases pss with
    | nil => exact absurd h (by simp [facesMapped])
    | cons ps pss' =>
      obtain ⟨h1, h2, h3, h4⟩ := h
      cases i with
      | zero => simpa using ⟨h1, h2, h3⟩
      | succ i' => simpa using ih h4 i' (by simpa using hi)

theorem faceLen_pos {vm : List (Nat × Nat)} {fs : List (List Nat)}
    {pss : List (List (Nat × Nat))} (h : facesMapped vm fs pss) {i : Nat}
    (hi : i < pss.length) : 0 < faceLen pss i := by
  have hlen := facesMapped_length h
  obtain ⟨h1, _, h3⟩ := facesMapped_getD h i (by omega)
  rw [faceLen, h3]
  exact List.length_pos.mpr h1

theorem vmapOf_lookup_lt {faces : List (List Nat)} {x v : Nat}
    (h : alookup (vmapOf faces) x = some v) : v < nvOf faces := by
  obtain ⟨h1, h2, _⟩ := enumKeys_lookup h
  rw [nvOf]
  omega

theorem pairAt_lt {faces : List (List Nat)} {pss : List (List (Nat × Nat))}
    (h : facesMapped (vmapOf faces) faces pss) {i j : Nat}
    (hi : i < pss.length) (hj : j < faceLen pss i) :
    (pairAt pss i j).1 < nvOf faces ∧ (pairAt pss i j).2 < nvOf faces := by
  have hlen := facesMapped_length h
  obtain ⟨h1, h2, h3⟩ := facesMapped_getD h i (by omega)
  have hq : pairAt pss i j ∈ pss.getD i [] := getD_mem_of_lt hj (0, 0)
  obtain ⟨p, hp, hl1, hl2⟩ := mapVP_mem_bwd h2 _ hq
  exact ⟨vmapOf_lookup_lt hl1, vmapOf_lookup_lt hl2⟩

theorem pairAt_chain {faces : List (List Nat)} {pss : List (List (Nat × Nat))}
    (h : facesMapped (vmapOf faces) faces pss) {i j : Nat}
    (hi : i < pss.length) (hj : j < faceLen pss i) :
    (pairAt pss i j).2 = (pairAt pss i ((j + 1) % faceLen pss i)).1 := by
  have hlen := facesMapped_length h
  obtain ⟨h1, h2, h3⟩ := facesMapped_getD h i (by omega)
  have hk : faceLen pss i = (faces.getD i []).length := by rw [faceLen, h3]
  have hwlen : (wrapPairs (faces.getD i [])).length = (faces.getD i []).length :=
    wrapPairs_length h1
  have hj' : j < (wrapPairs (faces.getD i [])).length := by omega
  have hmod : (j + 1) % faceLen pss i < (wrapPairs (faces.getD i [])).length := by
    rw [hwlen, ← hk]
    exact Nat.mod_lt _ (by omega)
  obtain ⟨r1, r2⟩ := mapVP_getD h2 j hj'
  obtain ⟨s1, s2⟩ := mapVP_getD h2 ((j + 1) % faceLen pss i) hmod
  have hraw := wrapPairs_chain h1 (j := j) (by omega)
  rw [← hk] at hraw
  rw [hraw] at r2
  rw [r2] at s1
  injection s1 with s1

/-! ## Accessor values on a constructed mesh -/

theorem rootBlocks_keys_nodup (n : Nat) (pss : List (List (Nat × Nat))) :
    ((rootBlocks n pss).map Prod.fst).Nodup := by
  rw [rootBlocks_keys]
  exact List.nodup_range' _ _

theorem faceBlocksKeysNodup (n fid : Nat) (pss : List (List (Nat × Nat))) :
    ((faceBlocks n fid pss).map Prod.fst).Nodup := by
  rw [faceBlocks_keys]
  exact List.nodup_range' _ _

theorem nextBlocksKeysNodup (n : Nat) (pss : List (List (Nat × Nat))) :
    ((nextBlocks n pss).map Prod.fst).Nodup := by
  rw [nextBlocks_keys]
  exact List.nodup_range' _ _

theorem mesh_root_at {faces : List (List Nat)} {m : Douconel} {pss : List (List (Nat × Nat))}
    (hfm : facesMapped (vmapOf faces) faces pss)
    (hverts : m.verts = List.range (nvOf faces))
    (hroot : m.edge_root = (rootBlocks 0 pss).reverse)
    {i j : Nat} (hi : i < pss.length) (hj : j < faceLen pss i) :
    m.root (blockOff pss i + j) = some (pairAt pss i j).1 := by
  have hl := rootBlocks_lookup pss 0 i j hi hj
  simp only [Nat.zero_add] at hl
  rw [Douconel.root, hroot, alookup_reverse (rootBlocks_keys_nodup 0 pss), hl]
  have hlt := (pairAt_lt hfm hi hj).1
  rw [hverts]
  simp [List.mem_range, hlt]

theorem mesh_face_at {faces : List (List Nat)} {m : Douconel} {pss : List (List (Nat × Nat))}
    (hfm : facesMapped (vmapOf faces) faces pss)
    (hfaces : m.faces = List.range faces.length)
    (hface : m.edge_face = (faceBlocks 0 0 pss).reverse)
    {i j : Nat} (hi : i < pss.length) (hj : j < faceLen pss i) :
    m.face (blockOff pss i + j) = some i := by
  have hl := faceBlocks_lookup pss 0 0 i j hi hj
  simp only [Nat.zero_add] at hl
  rw [Douconel.face, hface, alookup_reverse (faceBlocksKeysNodup 0 0 pss), hl]
  have hlen := facesMapped_length hfm
  rw [hfaces]
  simp [List.mem_range]
  omega

theorem mesh_next_at {faces : List (List Nat)} {m : Douconel} {pss : List (List (Nat × Nat))}
    (hfm : facesMapped (vmapOf faces) faces pss)
    (hedges : m.edges = List.range (totalLen pss))
    (hnext : m.edge_next = (nextBlocks 0 pss).reverse)
    {i j : Nat} (hi : i < pss.length) (hj : j < faceLen pss i) :
    m.next (blockOff pss i + j) = some (blockOff pss i + (j + 1) % faceLen pss i) := by
  have hl := nextBlocks_lookup pss 0 i j hi hj
  simp only [Nat.zero_add] at hl
  rw [Douconel.next, hnext, alookup_reverse (nextBlocksKeysNodup 0 pss), hl]
  have hb := blockOff_le_totalLen pss i hi
  have hmod : (j + 1) % faceLen pss i < faceLen pss i :=
    Nat.mod_lt _ (by omega)
  rw [hedges]
  simp [List.mem_range]
  omega

theorem mesh_twin_at {faces : List (List Nat)} {m : Douconel} {pss : List (List (Nat × Nat))}
    (hfm : facesMapped (vmapOf faces) faces pss)
    (hedges : m.edges = List.range (totalLen pss))
    (htw : buildTwins ((epBlocks 0 pss).reverse) ((epBlocks 0 pss).reverse) []
      = some m.edge_twin)
    (hnd : pss.flatten.Nodup)
    {i j : Nat} (hi : i < pss.length) (hj : j < faceLen pss i) :
    ∃ i' j', i' < pss.length ∧ j' < faceLen pss i' ∧
      pairAt pss i' j' = ((pairAt pss i j).2, (pairAt pss i j).1) ∧
      m.twin (blockOff pss i + j) = some (blockOff pss i' + j') ∧
      m.twin (blockOff pss i' + j') = some (blockOff pss i + j) := by
  have hk : (((epBlocks 0 pss).reverse).map Prod.fst).Nodup := by
    rw [List.map_reverse, epBlocks_keys, List.nodup_reverse]
    exact hnd
  have hv : (((epBlocks 0 pss).reverse).map Prod.snd).Nodup := by
    rw [List.map_reverse, epBlocks_vals, List.nodup_reverse]
    exact List.nodup_range' _ _
  have hmem : (pairAt pss i j, blockOff pss i + j) ∈ (epBlocks 0 pss).reverse := by
    rw [List.mem_reverse]
    simpa using epBlocks_mem_of pss 0 i j hi hj
  obtain ⟨t, hlt, hrevmem, hlt2⟩ :=
    twins_spec hk hv htw (pairAt pss i j).1 (pairAt pss i j).2 (blockOff pss i + j)
      (by simpa using hmem)
  rw [List.mem_reverse] at hrevmem
  obtain ⟨i', j', hi', hj', hq⟩ := epBlocks_mem_inv pss 0 _ hrevmem
  rw [Prod.mk.injEq] at hq
  obtain ⟨hq1, hq2⟩ := hq
  have ht : t = blockOff pss i' + j' := by
    rw [hq2]
    omega
  refine ⟨i', j', hi', hj', by rw [← hq1], ?_, ?_⟩
  · rw [Douconel.twin, hlt, ← ht]
    have hb := blockOff_le_totalLen pss i' hi'
    rw [hedges]
    simp only [List.mem_range]
    rw [if_pos (by omega)]
  · rw [ht] at hlt2
    rw [Douconel.twin, hlt2]
    have hb := blockOff_le_totalLen pss i hi
    rw [hedges]
    simp only [List.mem_range]
    rw [if_pos (by omega)]

theorem mesh_vert_rep_at {faces : List (List Nat)} {m : Douconel}
    {pss : List (List (Nat × Nat))}
    (hvr : buildReps (List.range (nvOf faces)) ((vteBlocks 0 pss).reverse) = some m.vert_rep)
    {v : Nat} (hv : v < nvOf faces) :
    ∃ e, alookup m.vert_rep v = some e ∧ e < totalLen pss := by
  obtain ⟨h1, h2⟩ := buildReps_lookup hvr v (by simpa using hv)
  rcases hx : alookup ((vteBlocks 0 pss).reverse) v with _ | e
  · rw [hx] at h2
    simp at h2
  refine ⟨e, by rw [h1, hx], ?_⟩
  have hmem := alookup_mem hx
  rw [List.mem_reverse] at hmem
  have : e ∈ (vteBlocks 0 pss).map Prod.snd := List.mem_map.mpr ⟨(v, e), hmem, rfl⟩
  rw [vteBlocks_vals] at this
  rw [List.mem_range'] at this
  obtain ⟨k, hk, hke⟩ := this
  omega

theorem mesh_face_rep_at {faces : List (List Nat)} {m : Douconel}
    {pss : List (List (Nat × Nat))}
    (hfm : facesMapped (vmapOf faces) faces pss)
    (hfr : buildReps (List.range faces.length) ((fteBlocks 0 0 pss).reverse) = some m.face_rep)
    {f : Nat} (hf : f < faces.length) :
    alookup m.face_rep f = some (blockOff pss f) ∧
      blockOff pss f + faceLen pss f ≤ totalLen pss := by
  have hlen := facesMapped_length hfm
  have hfp : f < pss.length := by omega
  obtain ⟨h1, h2⟩ := buildReps_lookup hfr f (by simpa using hf)
  have hnd : ((fteBlocks 0 0 pss).map Prod.fst).Nodup := by
    rw [fteBlocks_keys]
    exact List.nodup_range' _ _
  have hl := fteBlocks_lookup pss 0 0 f hfp
  simp only [Nat.zero_add] at hl
  rw [h1, alookup_reverse hnd, hl]
  exact ⟨rfl, blockOff_le_totalLen pss f hfp⟩

/-! ## Iterating `next` inside one face -/

theorem nextIter_at {faces : List (List Nat)} {m : Douconel} {pss : List (List (Nat × Nat))}
    (hfm : facesMapped (vmapOf faces) faces pss)
    (hedges : m.edges = List.range (totalLen pss))
    (hnext : m.edge_next = (nextBlocks 0 pss).reverse)
    {i : Nat} (hi : i < pss.length) :
    ∀ (t j : Nat), j < faceLen pss i →
      nextIter m (blockOff pss i + j) t = some (blockOff pss i + (j + t) % faceLen pss i) := by
  intro t
  induction t with
  | zero =>
    intro j hj
    rw [nextIter, Nat.add_zero, Nat.mod_eq_of_lt hj]
  | succ t' ih =>
    intro j hj
    have hstep := mesh_next_at hfm hedges hnext hi hj
    have hmod : (j + 1) % faceLen pss i < faceLen pss i := Nat.mod_lt _ (by omega)
    have hred : nextIter m (blockOff pss i + j) (t' + 1)
        = nextIter m (blockOff pss i + (j + 1) % faceLen pss i) t' := by
      rw [nextIter, hstep]
    rw [hred, ih ((j + 1) % faceLen pss i) hmod]
    have harith : ((j + 1) % faceLen pss i + t') % faceLen pss i
        = (j + (t' + 1)) % faceLen pss i := by
      rw [Nat.mod_add_mod, show j + 1 + t' = j + (t' + 1) from by omega]
    rw [harith]

theorem nextSearch_of_hit {m : Douconel} {target : Nat} :
    ∀ (fuel t cur : Nat), 1 ≤ t → t ≤ fuel → nextIter m cur t = some target →
      nextSearch m target cur fuel = true := by
  intro fuel
  induction fuel with
  | zero => intro t cur h1 h2 _; omega
  | succ f ih =>
    intro t cur h1 h2 hit
    cases t with
    | zero => omega
    | succ t' =>
      rw [nextIter] at hit
      rcases hn : m.next cur with _ | n1
      · rw [hn] at hit
        exact absurd hit (by simp)
      simp only [hn] at hit
      rw [nextSearch]
      simp only [hn]
      by_cases heq : n1 = target
      · rw [if_pos heq]
      · rw [if_neg heq]
        cases t' with
        | zero =>
          rw [nextIter] at hit
          injection hit with hit
          exact absurd hit heq
        | succ t'' => exact ih (t'' + 1) n1 (by omega) (by omega) hit

theorem nextSearch_true_iter {m : Douconel} {target : Nat} :
    ∀ (fuel cur : Nat), nextSearch m target cur fuel = true →
      ∃ t, 1 ≤ t ∧ t ≤ fuel ∧ nextIter m cur t = some target := by
  intro fuel
  induction fuel with
  | zero => intro cur h; rw [nextSearch] at h; exact absurd h (by simp)
  | succ f ih =>
    intro cur h
    rw [nextSearch] at h
    rcases hn : m.next cur with _ | n1
    · rw [hn] at h
      exact absurd h (by simp)
    simp only [hn] at h
    by_cases heq : n1 = target
    · exact ⟨1, by omega, by omega, by simp only [nextIter, hn, heq]⟩
    · rw [if_neg heq] at h
      obtain ⟨t, h1, h2, h3⟩ := ih n1 h
      refine ⟨t + 1, by omega, by omega, ?_⟩
      simp only [nextIter, hn]
      exact h3

/-! ## The face-boundary walk `edges_of` on a constructed mesh -/

theorem edgesFrom_block {faces : List (List Nat)} {m : Douconel} {pss : List (List (Nat × Nat))}
    (hfm : facesMapped (vmapOf faces) faces pss)
    (hedges : m.edges = List.range (totalLen pss))
    (hnext : m.edge_next = (nextBlocks 0 pss).reverse)
    {i : Nat} (hi : i < pss.length) :
    ∀ (r fuel : Nat), 1 ≤ r → r ≤ faceLen pss i → r ≤ fuel →
      edgesFrom m (blockOff pss i) (blockOff pss i + (faceLen pss i - r)) fuel
        = some (List.range' (blockOff pss i + (faceLen pss i - r)) r) := by
  intro r
  induction r with
  | zero => intro fuel h1 _ _; omega
  | succ r' ih =>
    intro fuel h1 h2 h3
    have hkpos : 0 < faceLen pss i := by omega
    have hj : faceLen pss i - (r' + 1) < faceLen pss i := by omega
    have hstep := mesh_next_at hfm hedges hnext hi hj
    cases fuel with
    | zero => omega
    | succ f =>
      rw [edgesFrom]
      simp only [hstep]
      cases r' with
      | zero =>
        have hmod : (faceLen pss i - 1 + 1) % faceLen pss i = 0 := by
          rw [Nat.sub_add_cancel (by omega), Nat.mod_self]
        rw [hmod, Nat.add_zero, if_pos rfl]
        rw [List.range'_succ]
        simp
      | succ r'' =>
        have hmod : (faceLen pss i - (r'' + 1 + 1) + 1) % faceLen pss i
            = faceLen pss i - (r'' + 1) := by
          rw [show faceLen pss i - (r'' + 1 + 1) + 1 = faceLen pss i - (r'' + 1) from by omega]
          exact Nat.mod_eq_of_lt (by omega)
        rw [hmod]
        have hne : ¬ (blockOff pss i + (faceLen pss i - (r'' + 1)) = blockOff pss i) := by
          omega
        rw [if_neg hne]
        simp only [ih f (by omega) (by omega) (by omega)]
        conv_rhs => rw [List.range'_succ]
        rw [show blockOff pss i + (faceLen pss i - (r'' + 1 + 1)) + 1
          = blockOff pss i + (faceLen pss i - (r'' + 1)) from by omega]

theorem edges_of_block {faces : List (List Nat)} {m : Douconel} {pss : List (List (Nat × Nat))}
    (hfm : facesMapped (vmapOf faces) faces pss)
    (hedges : m.edges = List.range (totalLen pss))
    (hnext : m.edge_next = (nextBlocks 0 pss).reverse)
    (hfr : buildReps (List.range faces.length) ((fteBlocks 0 0 pss).reverse) = some m.face_rep)
    {f : Nat} (hf : f < faces.length) :
    m.edges_of f = some (List.range' (blockOff pss f) (faceLen pss f)) := by
  have hlen := facesMapped_length hfm
  have hfp : f < pss.length := by omega
  obtain ⟨hrep, hbnd⟩ := mesh_face_rep_at hfm hfr hf
  have hkpos : 0 < faceLen pss f := faceLen_pos hfm hfp
  have hfuel : faceLen pss f ≤ m.edges.length + 1 := by
    rw [hedges, List.length_range]
    omega
  have hwalk := edgesFrom_block hfm hedges hnext hfp (faceLen pss f) (m.edges.length + 1)
    (by omega) (by omega) hfuel
  rw [Nat.sub_self, Nat.add_zero] at hwalk
  rw [Douconel.edges_of]
  simp only [hrep]
  exact hwalk

theorem optionMapList_isSome {α β : Type} {g : α → Option β} :
    ∀ {es : List α}, (∀ x ∈ es, (g x).isSome) →
      ∃ cs, optionMapList g es = some cs ∧ cs.length = es.length := by
  intro es
  induction es with
  | nil => intro _; exact ⟨[], rfl, rfl⟩
  | cons x t ih =>
    intro h
    have hx := h x (by simp)
    rcases hgx : g x with _ | b
    · rw [hgx] at hx; simp at hx
    obtain ⟨cs, hcs, hlen⟩ := ih fun y hy => h y (List.mem_cons_of_mem _ hy)
    exact ⟨b :: cs, by simp [optionMapList, hgx, hcs], by simp [hlen]⟩

theorem corners_block {faces : List (List Nat)} {m : Douconel} {pss : List (List (Nat × Nat))}
    (hfm : facesMapped (vmapOf faces) faces pss)
    (hverts : m.verts = List.range (nvOf faces))
    (hedges : m.edges = List.range (totalLen pss))
    (hroot : m.edge_root = (rootBlocks 0 pss).reverse)
    (hnext : m.edge_next = (nextBlocks 0 pss).reverse)
    (hfr : buildReps (List.range faces.length) ((fteBlocks 0 0 pss).reverse) = some m.face_rep)
    {f : Nat} (hf : f < faces.length) :
    ∃ cs, m.corners f = some cs ∧ cs.length = faceLen pss f := by
  have hlen := facesMapped_length hfm
  have hfp : f < pss.length := by omega
  have hedgesof := edges_of_block hfm hedges hnext hfr hf
  have hall : ∀ e ∈ List.range' (blockOff pss f) (faceLen pss f), (m.root e).isSome := by
    intro e he
    rw [List.mem_range'] at he
    obtain ⟨j, hj, rfl⟩ := he
    rw [mesh_root_at hfm hverts hroot hfp (by simpa using hj)]
    rfl
  obtain ⟨cs, hcs, hcl⟩ := optionMapList_isSome hall
  refine ⟨cs, ?_, by rw [hcl, List.length_range']⟩
  rw [Douconel.corners]
  simp only [hedgesof]
  exact hcs

/-! ## Concrete inputs used by the witnesses and counterexamples -/

/-- The tetrahedron face list from the test suite. -/
def tetFaces : List (List Nat) := [[0, 2, 1], [0, 1, 3], [1, 2, 3], [0, 3, 2]]

theorem isOkBuild_iff {r : FFResult} : isOkBuild r = true ↔ ∃ m vm fm, r = .ok m vm fm := by
  cases r <;> simp [isOkBuild]

/-! ## Claim theorems: invariants of constructed meshes -/

/-- C4: for every mesh returned by `from_faces` and every half-edge `e` of
that mesh, `twin(twin(e)) == e` (the accessors succeed and compose to the
identity). -/
theorem twin_twin_eq_self {faces : List (List Nat)} {m : Douconel} {vm fm : List (Nat × Nat)}
    (h : from_faces faces = .ok m vm fm) {e : Nat} (he : e ∈ m.edges) :
    ∃ t, m.twin e = some t ∧ m.twin t = some e ∧ (m.twin e).bind m.twin = some e := by
  obtain ⟨pss, hfm, hvm, hverts, hedges, hfaces, hroot, hface, hnext, hfp, hvr, hfr, htw, hnd⟩ :=
    from_faces_ok_core h
  rw [hedges, List.mem_range] at he
  obtain ⟨i, j, hi, hj, rfl⟩ := edge_decompose pss _ he
  obtain ⟨i', j', hi', hj', hpair, ht1, ht2⟩ := mesh_twin_at hfm hedges htw hnd hi hj
  refine ⟨_, ht1, ht2, ?_⟩
  rw [ht1]
  exact ht2

/-- C5: for every mesh returned by `from_faces` and every half-edge `e`,
iterating `next` first returns to `e` after exactly `|corners(face(e))|`
steps and at no earlier positive step. -/
theorem next_cycle_length {faces : List (List Nat)} {m : Douconel} {vm fm : List (Nat × Nat)}
    (h : from_faces faces = .ok m vm fm) {e : Nat} (he : e ∈ m.edges) :
    ∃ f cs, m.face e = some f ∧ m.corners f = some cs ∧
      nextIter m e cs.length = some e ∧
      ∀ t, 0 < t → t < cs.length → nextIter m e t ≠ some e := by
  obtain ⟨pss, hfm, hvm, hverts, hedges, hfaces, hroot, hface, hnext, hfp, hvr, hfr, htw, hnd⟩ :=
    from_faces_ok_core h
  have hlen := facesMapped_length hfm
  rw [hedges, List.mem_range] at he
  obtain ⟨i, j, hi, hj, rfl⟩ := edge_decompose pss _ he
  obtain ⟨cs, hcs, hcl⟩ := corners_block hfm hverts hedges hroot hnext hfr
    (f := i) (by omega)
  refine ⟨i, cs, mesh_face_at hfm hfaces hface hi hj, hcs, ?_, ?_⟩
  · rw [hcl, nextIter_at hfm hedges hnext hi (faceLen pss i) j hj, Nat.add_mod_right,
      Nat.mod_eq_of_lt hj]
  · intro t ht1 ht2
    rw [hcl] at ht2
    rw [nextIter_at hfm hedges hnext hi t j hj]
    intro hc
    injection hc with hc
    have hne : (j + t) % faceLen pss i = j := by omega
    by_cases hcase : j + t < faceLen pss i
    · rw [Nat.mod_eq_of_lt hcase] at hne
      omega
    · rw [Nat.mod_eq_sub_mod (by omega)] at hne
      rw [Nat.mod_eq_of_lt (by omega)] at hne
      omega

/-- C6: for every mesh returned by `from_faces` and every face `f`,
`edges(f)` and `corners(f)` have the same length and every edge of
`edges(f)` has face `f`. -/
theorem face_edges_corners {faces : List (List Nat)} {m : Douconel} {vm fm : List (Nat × Nat)}
    (h : from_faces faces = .ok m vm fm) {f : Nat} (hf : f ∈ m.faces) :
    ∃ es cs, m.edges_of f = some es ∧ m.corners f = some cs ∧ es.length = cs.length ∧
      ∀ e ∈ es, m.face e = some f := by
  obtain ⟨pss, hfm, hvm, hverts, hedges, hfaces, hroot, hface, hnext, hfp, hvr, hfr, htw, hnd⟩ :=
    from_faces_ok_core h
  have hlen := facesMapped_length hfm
  rw [hfaces, List.mem_range] at hf
  have hfpss : f < pss.length := by omega
  obtain ⟨cs, hcs, hcl⟩ := corners_block hfm hverts hedges hroot hnext hfr hf
  refine ⟨_, cs, edges_of_block hfm hedges hnext hfr hf, hcs, by simp [List.length_range', hcl],
    ?_⟩
  intro e he
  rw [List.mem_range'] at he
  obtain ⟨j, hj, rfl⟩ := he
  exact mesh_face_at hfm hfaces hface hfpss (by simpa using hj)

/-- C1 (amended): every mesh `from_faces` returns passes
`verify_properties` and `verify_references`, and also `verify_invariants`
provided every input face has at most `max_face_size = 100` vertices (the
bounded cycle check caps the face degree it accepts). -/
theorem from_faces_verifies {faces : List (List Nat)} {m : Douconel} {vm fm : List (Nat × Nat)}
    (h : from_faces faces = .ok m vm fm) :
    m.verify_properties = true ∧ m.verify_references = true ∧
    ((∀ f ∈ faces, f.length ≤ 100) → m.verify_invariants = true) := by
  obtain ⟨pss, hfm, hvm, hverts, hedges, hfaces, hroot, hface, hnext, hfp, hvr, hfr, htw, hnd⟩ :=
    from_faces_ok_core h
  have hlen := facesMapped_length hfm
  have edge_data : ∀ e ∈ m.edges, ∃ i j, i < pss.length ∧ j < faceLen pss i
      ∧ e = blockOff pss i + j := by
    intro e he
    rw [hedges, List.mem_range] at he
    exact edge_decompose pss e he
  refine ⟨?_, ?_, ?_⟩
  · rw [Douconel.verify_properties]
    simp only [Bool.and_eq_true, List.all_eq_true]
    refine ⟨⟨?_, ?_⟩, ?_⟩
    · intro e he
      obtain ⟨i, j, hi, hj, rfl⟩ := edge_data e he
      have h1 := mesh_root_at hfm hverts hroot hi hj
      have h2 := mesh_face_at hfm hfaces hface hi hj
      have h3 := mesh_next_at hfm hedges hnext hi hj
      obtain ⟨i', j', hi', hj', hpair, ht1, ht2⟩ := mesh_twin_at hfm hedges htw hnd hi hj
      rw [Douconel.root] at h1
      rw [Douconel.face] at h2
      rw [Douconel.next] at h3
      rw [Douconel.twin] at ht1
      rcases hx1 : alookup m.edge_root (blockOff pss i + j) with _ | v1
      · rw [hx1] at h1; exact absurd h1 (by simp)
      rcases hx2 : alookup m.edge_face (blockOff pss i + j) with _ | v2
      · rw [hx2] at h2; exact absurd h2 (by simp)
      rcases hx3 : alookup m.edge_next (blockOff pss i + j) with _ | v3
      · rw [hx3] at h3; exact absurd h3 (by simp)
      rcases hx4 : alookup m.edge_twin (blockOff pss i + j) with _ | v4
      · rw [hx4] at ht1; exact absurd ht1 (by simp)
      simp [hx1, hx2, hx3, hx4]
    · intro v hv
      rw [hverts, List.mem_range] at hv
      obtain ⟨e, he, _⟩ := mesh_vert_rep_at hvr hv
      simp [he]
    · intro f hf
      rw [hfaces, List.mem_range] at hf
      obtain ⟨he, _⟩ := mesh_face_rep_at hfm hfr hf
      simp [he]
  · rw [Douconel.verify_references]
    simp only [Bool.and_eq_true, List.all_eq_true]
    refine ⟨⟨?_, ?_⟩, ?_⟩
    · intro e he
      obtain ⟨i, j, hi, hj, rfl⟩ := edge_data e he
      have h1 := mesh_root_at hfm hverts hroot hi hj
      have h2 := mesh_face_at hfm hfaces hface hi hj
      have h3 := mesh_next_at hfm hedges hnext hi hj
      obtain ⟨i', j', hi', hj', hpair, ht1, ht2⟩ := mesh_twin_at hfm hedges htw hnd hi hj
      simp [h1, h2, h3, ht1]
    · intro v hv
      rw [hverts, List.mem_range] at hv
      obtain ⟨e, he, helt⟩ := mesh_vert_rep_at hvr hv
      rw [he]
      rw [hedges]
      simpa using helt
    · intro f hf
      rw [hfaces, List.mem_range] at hf
      obtain ⟨he, hbnd⟩ := mesh_face_rep_at hfm hfr hf
      have hfpss : f < pss.length := by omega
      have hkpos : 0 < faceLen pss f := faceLen_pos hfm hfpss
      rw [he]
      rw [hedges]
      have : blockOff pss f ∈ List.range (totalLen pss) := by
        rw [List.mem_range]
        omega
      simpa using this
  · intro hb
    rw [Douconel.verify_invariants]
    simp only [Bool.and_eq_true, List.all_eq_true]
    refine ⟨⟨⟨?_, ?_⟩, ?_⟩, ?_⟩
    · intro e he
      obtain ⟨i, j, hi, hj, rfl⟩ := edge_data e he
      obtain ⟨i', j', hi', hj', hpair, ht1, ht2⟩ := mesh_twin_at hfm hedges htw hnd hi hj
      simp [ht1, ht2]
    · intro e he
      obtain ⟨i, j, hi, hj, rfl⟩ := edge_data e he
      have h1 := mesh_root_at hfm hverts hroot hi hj
      obtain ⟨i', j', hi', hj', hpair, ht1, ht2⟩ := mesh_twin_at hfm hedges htw hnd hi hj
      have h3 := mesh_next_at hfm hedges hnext hi' hj'
      have hmod : (j' + 1) % faceLen pss i' < faceLen pss i' := Nat.mod_lt _ (by omega)
      have h4 := mesh_root_at hfm hverts hroot hi' hmod
      have hchain := pairAt_chain hfm hi' hj'
      rw [hpair] at hchain
      simp only at hchain
      rw [← hchain] at h4
      rw [h1, ht1]
      simp [h3, h4]
    · intro e he
      obtain ⟨i, j, hi, hj, rfl⟩ := edge_data e he
      have h2 := mesh_face_at hfm hfaces hface hi hj
      have h3 := mesh_next_at hfm hedges hnext hi hj
      have hmod : (j + 1) % faceLen pss i < faceLen pss i := Nat.mod_lt _ (by omega)
      have h4 := mesh_face_at hfm hfaces hface hi hmod
      rw [h2, h3]
      simp [h4]
    · intro e he
      obtain ⟨i, j, hi, hj, rfl⟩ := edge_data e he
      have hk100 : faceLen pss i ≤ 100 := by
        obtain ⟨hne, hmv, hlenq⟩ := facesMapped_getD hfm i (by omega)
        have : faces.getD i [] ∈ faces := getD_mem_of_lt (by omega) []
        rw [faceLen, hlenq]
        exact hb _ this
      apply nextSearch_of_hit 100 (faceLen pss i) _ (by have := faceLen_pos hfm hi; omega) hk100
      rw [nextIter_at hfm hedges hnext hi (faceLen pss i) j hj, Nat.add_mod_right,
        Nat.mod_eq_of_lt hj]

/-! ## Counts and pointer maps (claim C10) -/

theorem enumKeys_mem {l : List Nat} :
    ∀ {n x v : Nat}, (x, v) ∈ enumKeys n l ↔ ∃ j, j < l.length ∧ x = l.getD j 0 ∧ v = n + j := by
  induction l with
  | nil => intro n x v; simp [enumKeys]
  | cons y t ih =>
    intro n x v
    rw [enumKeys, List.mem_cons, ih]
    constructor
    · rintro (hq | ⟨j, hj, rfl, rfl⟩)
      · injection hq with h1 h2
        exact ⟨0, by simp, by simp [h1], by omega⟩
      · exact ⟨j + 1, by simpa using hj, by simp, by omega⟩
    · rintro ⟨j, hj, rfl, rfl⟩
      cases j with
      | zero => simp
      | succ j' =>
        refine Or.inr ⟨j', by simpa using hj, by simp, by omega⟩

theorem facesMapped_totalLen {vm : List (Nat × Nat)} :
    ∀ {fs : List (List Nat)} {pss : List (List (Nat × Nat))},
      facesMapped vm fs pss → totalLen pss = sumLen fs := by
  intro fs
  induction fs with
  | nil =>
    intro pss h
    cases pss with
    | nil => rfl
    | cons a b => exact absurd h (by simp [facesMapped])
  | cons f fs' ih =>
    intro pss h
    cases pss with
    | nil => exact absurd h (by simp [facesMapped])
    | cons ps pss' =>
      obtain ⟨_, _, h3, h4⟩ := h
      rw [totalLen, sumLen, h3, ih h4]

/-- C10: a successful construction allocates exactly one vertex per distinct
input index, one face per input face, and one half-edge per consecutive
index pair (so `nr_edges` is the sum of the inner lengths), and the two
returned pointer maps are bijections between input indices and the live
handles. -/
theorem from_faces_counts_and_maps {faces : List (List Nat)} {m : Douconel}
    {vm fm : List (Nat × Nat)} (h : from_faces faces = .ok m vm fm) :
    m.verts.length = (uniqueFirst faces.flatten).length ∧
    m.faces.length = faces.length ∧
    m.edges.length = sumLen faces ∧
    (∀ x, (∃ v, (x, v) ∈ vm) ↔ x ∈ faces.flatten) ∧
    (∀ v, (∃ x, (x, v) ∈ vm) ↔ v ∈ m.verts) ∧
    (∀ x v v', (x, v) ∈ vm → (x, v') ∈ vm → v = v') ∧
    (∀ x x' v, (x, v) ∈ vm → (x', v) ∈ vm → x = x') ∧
    (∀ i, (∃ y, (i, y) ∈ fm) ↔ i < faces.length) ∧
    (∀ y, (∃ i, (i, y) ∈ fm) ↔ y ∈ m.faces) ∧
    (∀ i y y', (i, y) ∈ fm → (i, y') ∈ fm → y = y') ∧
    (∀ i i' y, (i, y) ∈ fm → (i', y) ∈ fm → i = i') := by
  obtain ⟨pss, hfm, hvm, hverts, hedges, hfaces, hroot, hface, hnext, hfp, hvr, hfr, htw, hnd⟩ :=
    from_faces_ok_core h
  have hlen := facesMapped_length hfm
  have hnodup := nodup_uniqueFirst faces.flatten
  have hvmem : ∀ x v, (x, v) ∈ vm ↔
      ∃ j, j < nvOf faces ∧ x = (uniqueFirst faces.flatten).getD j 0 ∧ v = j := by
    intro x v
    rw [hvm, vmapOf, enumKeys_mem]
    constructor
    · rintro ⟨j, hj, rfl, hv⟩
      exact ⟨j, by simpa [nvOf] using hj, rfl, by omega⟩
    · rintro ⟨j, hj, rfl, hv⟩
      exact ⟨j, by simpa [nvOf] using hj, rfl, by omega⟩
  have hfmem : ∀ i y, (i, y) ∈ fm ↔ i < faces.length ∧ y = i := by
    intro i y
    rw [hfp, List.mem_reverse, fpBlocks_mem]
    constructor
    · rintro ⟨k, hk, hq⟩
      injection hq with h1 h2
      omega
    · rintro ⟨hi, hy⟩
      exact ⟨i, by omega, by simp [hy]⟩
  refine ⟨by rw [hverts, List.length_range, nvOf], by rw [hfaces, List.length_range],
    by rw [hedges, List.length_range, facesMapped_totalLen hfm], ?_, ?_, ?_, ?_, ?_, ?_, ?_, ?_⟩
  · intro x
    constructor
    · rintro ⟨v, hv⟩
      obtain ⟨j, hj, rfl, _⟩ := (hvmem x v).mp hv
      exact mem_uniqueFirst.mp (getD_mem_of_lt (by simpa [nvOf] using hj) 0)
    · intro hx
      have hx' : x ∈ uniqueFirst faces.flatten := mem_uniqueFirst.mpr hx
      obtain ⟨j, hj, hget⟩ := List.mem_iff_getElem.mp hx'
      refine ⟨j, (hvmem x j).mpr ⟨j, by simpa [nvOf] using hj, ?_, rfl⟩⟩
      rw [List.getD_eq_getElem _ _ hj, hget]
  · intro v
    constructor
    · rintro ⟨x, hx⟩
      obtain ⟨j, hj, _, rfl⟩ := (hvmem x v).mp hx
      rw [hverts, List.mem_range]
      exact hj
    · intro hv
      rw [hverts, List.mem_range] at hv
      exact ⟨(uniqueFirst faces.flatten).getD v 0, (hvmem _ v).mpr ⟨v, hv, rfl, rfl⟩⟩
  · intro x v v' h1 h2
    obtain ⟨j, hj, hx1, hv1⟩ := (hvmem x v).mp h1
    obtain ⟨j', hj', hx2, hv2⟩ := (hvmem x v').mp h2
    rw [List.getD_eq_getElem _ _ (by simpa [nvOf] using hj)] at hx1
    rw [List.getD_eq_getElem _ _ (by simpa [nvOf] using hj')] at hx2
    rw [hx1] at hx2
    have := hnodup.getElem_inj_iff.mp hx2.symm
    omega
  · intro x x' v h1 h2
    obtain ⟨j, hj, hx1, hv1⟩ := (hvmem x v).mp h1
    obtain ⟨j', hj', hx2, hv2⟩ := (hvmem x' v).mp h2
    rw [hx1, hx2, show j' = j from by omega]
  · intro i
    constructor
    · rintro ⟨y, hy⟩
      exact ((hfmem i y).mp hy).1
    · intro hi
      exact ⟨i, (hfmem i i).mpr ⟨hi, rfl⟩⟩
  · intro y
    rw [hfaces, List.mem_range]
    constructor
    · rintro ⟨i, hy⟩
      obtain ⟨hi, hyi⟩ := (hfmem i y).mp hy
      omega
    · intro hy
      exact ⟨y, (hfmem y y).mpr ⟨hy, rfl⟩⟩
  · intro i y y' h1 h2
    obtain ⟨_, hy1⟩ := (hfmem i y).mp h1
    obtain ⟨_, hy2⟩ := (hfmem i y').mp h2
    rw [hy1, hy2]
  · intro i i' y h1 h2
    obtain ⟨_, hy1⟩ := (hfmem i y).mp h1
    obtain ⟨_, hy2⟩ := (hfmem i' y).mp h2
    omega

/-! ## Error analysis and completeness of the construction -/

theorem pairUp_mem : ∀ {c : List Nat} {q : Nat × Nat}, q ∈ pairUp c → q.1 ∈ c ∧ q.2 ∈ c := by
  intro c
  induction c with
  | nil => intro q h; simp [pairUp] at h
  | cons a t ih =>
    intro q h
    cases t with
    | nil => simp [pairUp] at h
    | cons b t' =>
      rw [pairUp, List.mem_cons] at h
      rcases h with rfl | h'
      · simp
      · obtain ⟨h1, h2⟩ := ih h'
        exact ⟨List.mem_cons_of_mem _ h1, List.mem_cons_of_mem _ h2⟩

theorem wrapPairs_mem {f : List Nat} {q : Nat × Nat} (h : q ∈ wrapPairs f) :
    q.1 ∈ f ∧ q.2 ∈ f := by
  cases f with
  | nil => simp [wrapPairs] at h
  | cons v0 t =>
    rw [wrapPairs] at h
    obtain ⟨h1, h2⟩ := pairUp_mem h
    constructor
    · rcases List.mem_append.mp h1 with h' | h'
      · exact h'
      · simp at h'
        simp [h']
    · rcases List.mem_append.mp h2 with h' | h'
      · exact h'
      · simp at h'
        simp [h']

theorem vmapOf_covers {faces : List (List Nat)} {x : Nat} (h : x ∈ faces.flatten) :
    (alookup (vmapOf faces) x).isSome :=
  enumKeys_isSome (mem_uniqueFirst.mpr h) 0

theorem mapVP_wrapPairs_total {faces : List (List Nat)} {f : List Nat} (hf : f ∈ faces) :
    ∃ ps, mapVP (vmapOf faces) (wrapPairs f) = some ps := by
  apply mapVP_total
  intro p hp
  obtain ⟨h1, h2⟩ := wrapPairs_mem hp
  exact ⟨vmapOf_covers (List.mem_flatten.mpr ⟨f, hf, h1⟩),
    vmapOf_covers (List.mem_flatten.mpr ⟨f, hf, h2⟩)⟩

theorem buildEdges_error_dup {fid : Nat} :
    ∀ {ps : List (Nat × Nat)} {s : BState} {err : BuildErr},
      buildEdges fid s ps = .error err → err = .dupEdge := by
  intro ps
  induction ps with
  | nil => intro s err h; exact absurd h (by simp [buildEdges])
  | cons p t ih =>
    intro s err h
    obtain ⟨a, b⟩ := p
    simp only [buildEdges] at h
    by_cases hdup : (alookup s.endpoints (a, b)).isSome
    · rw [if_pos hdup] at h
      injection h with h
      exact h.symm
    · rw [if_neg hdup] at h
      rcases hrec : buildEdges fid _ t with err' | q <;> rw [hrec] at h
      · injection h with h
        rw [← h]
        exact ih hrec
      · obtain ⟨s₁, ids₁⟩ := q
        exact absurd h (by simp)

theorem buildEdges_total {fid : Nat} :
    ∀ {ps : List (Nat × Nat)} {s : BState},
      (∀ p ∈ ps, alookup s.endpoints p = none) → ps.Nodup →
      ∃ s' ids, buildEdges fid s ps = .ok (s', ids) := by
  intro ps
  induction ps with
  | nil => intro s _ _; exact ⟨s, [], rfl⟩
  | cons p t ih =>
    intro s hfresh hnd
    obtain ⟨a, b⟩ := p
    have h0 : alookup s.endpoints (a, b) = none := hfresh (a, b) (by simp)
    obtain ⟨hnotin, hnd'⟩ := List.nodup_cons.mp hnd
    obtain ⟨s', ids, hok⟩ := ih
      (s := { s with
        nextEdge := s.nextEdge + 1
        endpoints := ((a, b), s.nextEdge) :: s.endpoints
        edge_root := (s.nextEdge, a) :: s.edge_root
        edge_face := (s.nextEdge, fid) :: s.edge_face
        vert_to_edge := (a, s.nextEdge) :: s.vert_to_edge })
      (by
        intro q hq
        have hqne : q ≠ (a, b) := fun hc => hnotin (by rw [← hc]; exact hq)
        simp only [alookup_cons]
        rw [if_neg hqne]
        exact hfresh q (List.mem_cons_of_mem _ hq)) hnd'
    refine ⟨s', s.nextEdge :: ids, ?_⟩
    simp only [buildEdges, h0]
    simp [hok]

theorem processFace_error_dup {vm : List (Nat × Nat)} {idx : Nat} {s : BState}
    {face : List Nat} {err : BuildErr} (hne : face ≠ [])
    (hmv : ∃ ps, mapVP vm (wrapPairs face) = some ps)
    (h : processFace vm idx s face = .error err) : err = .dupEdge := by
  cases face with
  | nil => exact absurd rfl hne
  | cons v0 t =>
    obtain ⟨ps, hps⟩ := hmv
    rw [wrapPairs] at hps
    simp only [processFace] at h
    rw [hps] at h
    simp only at h
    rcases hbe : buildEdges s.nextFace
        { s with
          nextFace := s.nextFace + 1
          face_pointers := (idx, s.nextFace) :: s.face_pointers } ps with err' | q
    · rw [hbe] at h
      simp only [Except.error.injEq] at h
      rw [← h]
      exact buildEdges_error_dup hbe
    · obtain ⟨s₁, ids⟩ := q
      rw [hbe] at h
      obtain ⟨e1, e2, e3, e4, e5, e6, e7, e8, e9, e10, e11, e12⟩ := buildEdges_ok hbe
      have hlen : ps.length = t.length + 1 := by
        have := mapVP_length hps
        rw [this, pairUp_length]
        simp
      rcases hids : ids with _ | ⟨e0, ids'⟩
      · rw [hids] at e10
        have := congrArg List.length e10
        simp [List.length_range'] at this
        omega
      · rw [hids] at h
        simp at h

theorem buildFaces_error_dup {vm : List (Nat × Nat)} :
    ∀ {fs : List (List Nat)} {idx : Nat} {s : BState} {err : BuildErr},
      (∀ f ∈ fs, f ≠ []) → (∀ f ∈ fs, ∃ ps, mapVP vm (wrapPairs f) = some ps) →
      buildFaces vm idx s fs = .error err → err = .dupEdge := by
  intro fs
  induction fs with
  | nil => intro idx s err _ _ h; exact absurd h (by simp [buildFaces])
  | cons face rest ih =>
    intro idx s err hne hmv h
    simp only [buildFaces] at h
    rcases hpf : processFace vm idx s face with err' | s'
    · rw [hpf] at h
      injection h with h
      rw [← h]
      exact processFace_error_dup (hne face (by simp)) (hmv face (by simp)) hpf
    · simp only [hpf] at h
      exact ih (fun f hf => hne f (List.mem_cons_of_mem _ hf))
        (fun f hf => hmv f (List.mem_cons_of_mem _ hf)) h

/-- Per-face mapped pair lists, as a function (used to state completeness). -/
def mapFaces (vm : List (Nat × Nat)) : List (List Nat) → Option (List (List (Nat × Nat)))
  | [] => some []
  | f :: fs =>
    match mapVP vm (wrapPairs f) with
    | none => none
    | some ps =>
      match mapFaces vm fs with
      | none => none
      | some pss => some (ps :: pss)

theorem mapFaces_total {vm : List (Nat × Nat)} :
    ∀ {fs : List (List Nat)}, (∀ f ∈ fs, ∃ ps, mapVP vm (wrapPairs f) = some ps) →
      ∃ pss, mapFaces vm fs = some pss := by
  intro fs
  induction fs with
  | nil => exact fun _ => ⟨[], rfl⟩
  | cons f rest ih =>
    intro h
    obtain ⟨ps, hps⟩ := h f (by simp)
    obtain ⟨pss, hpss⟩ := ih fun g hg => h g (List.mem_cons_of_mem _ hg)
    exact ⟨ps :: pss, by simp [mapFaces, hps, hpss]⟩

theorem mapFaces_inputPairs {vm : List (Nat × Nat)} :
    ∀ {fs : List (List Nat)} {pss : List (List (Nat × Nat))},
      mapFaces vm fs = some pss → mapVP vm (inputPairs fs) = some pss.flatten := by
  intro fs
  induction fs with
  | nil =>
    intro pss h
    simp only [mapFaces, Option.some.injEq] at h
    subst h
    rfl
  | cons f rest ih =>
    intro pss h
    simp only [mapFaces] at h
    rcases hps : mapVP vm (wrapPairs f) with _ | ps <;> rw [hps] at h
    · exact absurd h (by simp)
    rcases hrest : mapFaces vm rest with _ | pss' <;> rw [hrest] at h
    · exact absurd h (by simp)
    simp only [Option.some.injEq] at h
    subst h
    rw [List.flatten_cons, inputPairs]
    exact mapVP_append hps (ih hrest)

theorem facesMapped_inputPairs {vm : List (Nat × Nat)} :
    ∀ {fs : List (List Nat)} {pss : List (List (Nat × Nat))},
      facesMapped vm fs pss → mapVP vm (inputPairs fs) = some pss.flatten := by
  intro fs
  induction fs with
  | nil =>
    intro pss h
    cases pss with
    | nil => rfl
    | cons a b => exact absurd h (by simp [facesMapped])
  | cons f rest ih =>
    intro pss h
    cases pss with
    | nil => exact absurd h (by simp [facesMapped])
    | cons ps pss' =>
      obtain ⟨h1, h2, h3, h4⟩ := h
      rw [List.flatten_cons, inputPairs]
      exact mapVP_append h2 (ih h4)

theorem buildFaces_total {vm : List (Nat × Nat)} :
    ∀ {fs : List (List Nat)} {pss : List (List (Nat × Nat))} {idx : Nat} {s : BState},
      (∀ f ∈ fs, f ≠ []) → mapFaces vm fs = some pss → pss.flatten.Nodup →
      (∀ p ∈ pss.flatten, alookup s.endpoints p = none) →
      ∃ S, buildFaces vm idx s fs = .ok S := by
  intro fs
  induction fs with
  | nil => intro pss idx s _ _ _ _; exact ⟨s, rfl⟩
  | cons face rest ih =>
    intro pss idx s hne hmf hnd hfresh
    simp only [mapFaces] at hmf
    rcases hps : mapVP vm (wrapPairs face) with _ | ps <;> rw [hps] at hmf
    · exact absurd hmf (by simp)
    rcases hrest : mapFaces vm rest with _ | pss' <;> rw [hrest] at hmf
    · exact absurd hmf (by simp)
    simp only [Option.some.injEq] at hmf
    subst hmf
    rw [List.flatten_cons, List.nodup_append] at hnd
    obtain ⟨hndps, hndrest, hdisj⟩ := hnd
    have hfreshps : ∀ p ∈ ps, alookup s.endpoints p = none := fun p hp =>
      hfresh p (by rw [List.flatten_cons]; exact List.mem_append_left _ hp)
    cases face with
    | nil => exact absurd rfl (hne [] (by simp))
    | cons v0 t =>
      rw [wrapPairs] at hps
      obtain ⟨s₁, ids, hbe⟩ := @buildEdges_total s.nextFace _
        { s with
          nextFace := s.nextFace + 1
          face_pointers := (idx, s.nextFace) :: s.face_pointers } hfreshps hndps
      obtain ⟨e1, e2, e3, e4, e5, e6, e7, e8, e9, e10, e11, e12⟩ := buildEdges_ok hbe
      have hlen : ps.length = t.length + 1 := by
        have := mapVP_length hps
        rw [this, pairUp_length]
        simp
      rcases hids : ids with _ | ⟨e0, ids'⟩
      · rw [hids] at e10
        have := congrArg List.length e10
        simp [List.length_range'] at this
        omega
      have hS1fresh : ∀ p ∈ pss'.flatten, alookup s₁.endpoints p = none := by
        intro p hp
        rw [e9, alookup_append_eq_none]
        constructor
        · rw [alookup_eq_none_iff, List.map_reverse, epBlock_keys, List.mem_reverse]
          exact fun hc => hdisj hc hp
        · exact hfresh p (by rw [List.flatten_cons]; exact List.mem_append_right _ hp)
      obtain ⟨S, hS⟩ := ih (fun f hf => hne f (List.mem_cons_of_mem _ hf)) hrest hndrest
        (s := { s₁ with
          face_to_edge := (s.nextFace, e0) :: s₁.face_to_edge
          edge_next := (cyclicNext ids).reverse ++ s₁.edge_next }) (by simpa using hS1fresh)
      refine ⟨S, ?_⟩
      simp only [buildFaces, processFace, hps, hbe, hids]
      rw [← hids]
      exact hS

theorem mapVP_nodup_fwd {vm : List (Nat × Nat)}
    (hinj : ∀ x y i, alookup vm x = some i → alookup vm y = some i → x = y) :
    ∀ {l r : List (Nat × Nat)}, mapVP vm l = some r → l.Nodup → r.Nodup := by
  intro l
  induction l with
  | nil =>
    intro r h _
    simp only [mapVP, Option.some.injEq] at h
    subst h
    simp
  | cons p t ih =>
    intro r h hnd
    obtain ⟨a, b⟩ := p
    simp only [mapVP] at h
    rcases ha : alookup vm a with _ | a' <;> rw [ha] at h
    · exact absurd h (by simp)
    rcases hb : alookup vm b with _ | b' <;> rw [hb] at h
    · exact absurd h (by simp)
    rcases hr : mapVP vm t with _ | rest <;> rw [hr] at h
    · exact absurd h (by simp)
    simp only [Option.some.injEq] at h
    subst h
    obtain ⟨hni, hnd'⟩ := List.nodup_cons.mp hnd
    refine List.nodup_cons.mpr ⟨?_, ih hr hnd'⟩
    intro hmem
    obtain ⟨p', hp', h1, h2⟩ := mapVP_mem_bwd hr (a', b') hmem
    have e1 : p'.1 = a := hinj p'.1 a a' h1 ha
    have e2 : p'.2 = b := hinj p'.2 b b' h2 hb
    apply hni
    have hpe : p' = (a, b) := by
      rcases p' with ⟨x, y⟩
      simp only at e1 e2
      rw [e1, e2]
    rw [← hpe]
    exact hp'

theorem facesMapped_flatten_fst {vm : List (Nat × Nat)} :
    ∀ {fs : List (List Nat)} {pss : List (List (Nat × Nat))}, facesMapped vm fs pss →
      ∀ x ∈ fs.flatten, ∃ v, alookup vm x = some v ∧
        v ∈ (pss.map (List.map Prod.fst)).flatten := by
  intro fs
  induction fs with
  | nil => intro pss h x hx; simp at hx
  | cons f rest ih =>
    intro pss h x hx
    cases pss with
    | nil => exact absurd h (by simp [facesMapped])
    | cons ps pss' =>
      obtain ⟨h1, h2, h3, h4⟩ := h
      rw [List.flatten_cons] at hx
      rcases List.mem_append.mp hx with hxf | hxr
      · have hxw : x ∈ (wrapPairs f).map Prod.fst := by
          rw [wrapPairs_fst]
          exact hxf
        obtain ⟨p, hp, hpx⟩ := List.mem_map.mp hxw
        obtain ⟨q, hq, hq1, hq2⟩ := mapVP_mem_fwd h2 p hp
        refine ⟨q.1, by rw [hpx] at hq1; exact hq1, ?_⟩
        simp only [List.map_cons, List.flatten_cons]
        exact List.mem_append_left _ (List.mem_map.mpr ⟨q, hq, rfl⟩)
      · obtain ⟨v, hv1, hv2⟩ := ih h4 x hxr
        refine ⟨v, hv1, ?_⟩
        simp only [List.map_cons, List.flatten_cons]
        exact List.mem_append_right _ hv2

theorem epBlock_key_mem {n : Nat} {ps : List (Nat × Nat)} {p : Nat × Nat} (h : p ∈ ps) :
    ∃ e, (p, e) ∈ epBlock n ps := by
  obtain ⟨j, hj, hget⟩ := List.getElem_of_mem h
  refine ⟨n + j, ?_⟩
  have hmem := epBlock_mem_of n ps j hj
  rwa [List.getD_eq_getElem _ _ hj, hget] at hmem

theorem epBlocks_key_mem : ∀ (pss : List (List (Nat × Nat))) (n : Nat) (p : Nat × Nat),
    p ∈ pss.flatten → ∃ e, (p, e) ∈ epBlocks n pss := by
  intro pss
  induction pss with
  | nil => intro n p h; simp at h
  | cons ps rest ih =>
    intro n p h
    rw [List.flatten_cons] at h
    rcases List.mem_append.mp h with h' | h'
    · obtain ⟨e, he⟩ := epBlock_key_mem (n := n) h'
      exact ⟨e, by rw [epBlocks]; exact List.mem_append_left _ he⟩
    · obtain ⟨e, he⟩ := ih (n + ps.length) p h'
      exact ⟨e, by rw [epBlocks]; exact List.mem_append_right _ he⟩

theorem pairAt_mem_flatten {pss : List (List (Nat × Nat))} {i j : Nat}
    (hi : i < pss.length) (hj : j < faceLen pss i) : pairAt pss i j ∈ pss.flatten := by
  have h1 : pss.getD i [] ∈ pss := getD_mem_of_lt hi []
  have hj' : j < (pss.getD i []).length := hj
  have h2 : (pss.getD i []).getD j (0, 0) ∈ pss.getD i [] := getD_mem_of_lt hj' (0, 0)
  exact List.mem_flatten.mpr ⟨_, h1, h2⟩

/-- Completeness of `from_faces`: on a list of nonempty faces whose directed
edges are pairwise distinct and closed under reversal, every construction
step succeeds and the function returns `ok`. -/
theorem from_faces_total {faces : List (List Nat)}
    (hne : ∀ f ∈ faces, f ≠ [])
    (hnd : (inputPairs faces).Nodup)
    (hsym : ∀ p ∈ inputPairs faces, (p.2, p.1) ∈ inputPairs faces) :
    ∃ m vmp fmp, from_faces faces = .ok m vmp fmp := by
  obtain ⟨pss, hmfs⟩ := @mapFaces_total (vmapOf faces) faces
    (fun f hf => mapVP_wrapPairs_total hf)
  have hflat : mapVP (vmapOf faces) (inputPairs faces) = some pss.flatten :=
    mapFaces_inputPairs hmfs
  have hinj : ∀ x y i, alookup (vmapOf faces) x = some i →
      alookup (vmapOf faces) y = some i → x = y := fun x y i hx hy => enumKeys_inj hx hy
  have hndf : pss.flatten.Nodup := mapVP_nodup_fwd hinj hflat hnd
  obtain ⟨S, hS⟩ := @buildFaces_total (vmapOf faces) faces pss 0
    ⟨0, 0, [], [], [], [], [], [], []⟩ hne hmfs hndf (fun p _ => rfl)
  obtain ⟨pss', hfm, c1, c2, c3, c4, c5, c6, c7, c8, c9, c10, c11⟩ := buildFaces_ok hS
  simp only [List.append_nil] at c3 c4 c5 c6 c7 c8 c9
  have hflat' : mapVP (vmapOf faces) (inputPairs faces) = some pss'.flatten :=
    facesMapped_inputPairs hfm
  have hvr : ∀ v ∈ List.range (uniqueFirst faces.flatten).length,
      (alookup S.vert_to_edge v).isSome := by
    intro v hv
    rw [c6, alookup_isSome_iff, List.map_reverse, List.mem_reverse, vteBlocks_keys]
    have hvlt : v < (uniqueFirst faces.flatten).length := List.mem_range.mp hv
    have hxmem : (uniqueFirst faces.flatten).getD v 0 ∈ uniqueFirst faces.flatten :=
      getD_mem_of_lt hvlt 0
    have hlook : alookup (vmapOf faces) ((uniqueFirst faces.flatten).getD v 0) = some v := by
      have := enumKeys_lookup_nodup (nodup_uniqueFirst faces.flatten) (n := 0) hvlt
      simpa [vmapOf] using this
    obtain ⟨w, hw1, hw2⟩ := facesMapped_flatten_fst hfm _ (mem_uniqueFirst.mp hxmem)
    rw [hlook] at hw1
    injection hw1 with hw1
    rw [hw1]
    exact hw2
  have hc2 : S.nextFace = faces.length := by simpa using c2
  have hfr : ∀ i ∈ List.range S.nextFace, (alookup S.face_to_edge i).isSome := by
    intro i hi
    have hlen : pss'.length = faces.length := facesMapped_length hfm
    have hilt : i < faces.length := by
      have := List.mem_range.mp hi
      omega
    rw [c7, alookup_isSome_iff, List.map_reverse, List.mem_reverse, fteBlocks_keys, hlen]
    simp only [List.mem_range'_1]
    omega
  have hepmem : ∀ q ∈ S.endpoints, (alookup S.endpoints (q.1.2, q.1.1)).isSome := by
    intro q hq
    rw [c9] at hq
    have hq' : q ∈ epBlocks 0 pss' := List.mem_reverse.mp hq
    obtain ⟨i, j, hi, hj, hqe⟩ := epBlocks_mem_inv pss' 0 q hq'
    have hkey : q.1 ∈ pss'.flatten := by
      rw [hqe]
      exact pairAt_mem_flatten hi hj
    obtain ⟨p, hp, hp1, hp2⟩ := mapVP_mem_bwd hflat' q.1 hkey
    have hswap := hsym p hp
    obtain ⟨q', hq'mem, hq'1, hq'2⟩ := mapVP_mem_fwd hflat' (p.2, p.1) hswap
    simp only at hq'1 hq'2
    rw [hp2] at hq'1
    rw [hp1] at hq'2
    injection hq'1 with hq'1
    injection hq'2 with hq'2
    have hq'eq : q' = (q.1.2, q.1.1) := by
      rcases q' with ⟨x, y⟩
      simp only at hq'1 hq'2
      rw [← hq'1, ← hq'2]
    rw [hq'eq] at hq'mem
    obtain ⟨e, he⟩ := epBlocks_key_mem pss' 0 _ hq'mem
    rw [c9]
    exact alookup_isSome_of_mem (List.mem_reverse.mpr he)
  obtain ⟨vreps, hvreps⟩ := buildReps_total hvr
  obtain ⟨freps, hfreps⟩ := buildReps_total hfr
  obtain ⟨twins, htwins⟩ := @buildTwins_total S.endpoints S.endpoints [] hepmem
  rw [← isOkBuild_iff]
  simp only [from_faces]
  rw [show enumKeys 0 (uniqueFirst faces.flatten) = vmapOf faces from rfl, hS]
  simp only [hvreps, hfreps, htwins, isOkBuild]

/-- C3 counterexample: an input with a duplicated directed edge (0,1) on
which the construction does not return a typed error but panics, because an
empty face is reached before the duplicate is detected. -/
theorem duplicate_edge_crash_cex :
    (¬ (inputPairs [[], [0, 1, 2], [0, 1, 3]]).Nodup) ∧
    from_faces [[], [0, 1, 2], [0, 1, 3]] = .panicEmptyFace := by
  constructor
  · decide
  · rfl

/-- C3 (amended): when every input face is nonempty, a duplicated directed
vertex pair makes `from_faces` return the typed duplicate-edge error — no
mesh and no panic; with an empty face in the input the construction can
instead panic on the empty face before the duplicate is seen. -/
theorem duplicate_edge_fails {faces : List (List Nat)}
    (hne : ∀ f ∈ faces, f ≠ [])
    (hdup : ¬ (inputPairs faces).Nodup) :
    from_faces faces = .errDuplicateEdge := by
  rcases hbf : buildFaces (vmapOf faces) 0 ⟨0, 0, [], [], [], [], [], [], []⟩ faces with err | S
  · have herr : err = .dupEdge :=
      buildFaces_error_dup hne (fun f hf => mapVP_wrapPairs_total hf) hbf
    subst herr
    simp only [from_faces]
    rw [show enumKeys 0 (uniqueFirst faces.flatten) = vmapOf faces from rfl, hbf]
  · obtain ⟨pss, hfm, c1, c2, c3, c4, c5, c6, c7, c8, c9, c10, c11⟩ := buildFaces_ok hbf
    exact absurd (mapVP_nodup_rev (facesMapped_inputPairs hfm) c10) hdup

/-- C3 witness: the spec's own example `[[0,1,2],[0,1,3]]` (duplicate
directed edge (0,1), all faces nonempty) hits the typed error. -/
theorem duplicate_edge_fails_witness :
    (∀ f ∈ [[0, 1, 2], [0, 1, 3]], f ≠ ([] : List Nat)) ∧
    (¬ (inputPairs [[0, 1, 2], [0, 1, 3]]).Nodup) ∧
    from_faces [[0, 1, 2], [0, 1, 3]] = .errDuplicateEdge :=
  ⟨by decide, by decide, duplicate_edge_fails (by decide) (by decide)⟩

/-- Two 101-gons glued along their whole boundary: a legal watertight input
whose faces exceed `max_face_size = 100`. -/
def bigInput : List (List Nat) := [List.range 101, (List.range 101).reverse]

set_option maxRecDepth 4000 in
/-- C1 counterexample: `from_faces` accepts `bigInput` and returns a mesh,
but the bounded `next`-cycle pass of `verify_invariants` (fuel 100) never
returns to the start edge of a 101-gon, so `verify_invariants` fails on a
mesh the construction engine returned. -/
theorem from_faces_verify_cex :
    ∃ m vmp fmp, from_faces bigInput = .ok m vmp fmp ∧ m.verify_invariants = false := by
  obtain ⟨m, vmp, fmp, hok⟩ := @from_faces_total bigInput
    (by decide) (by decide) (by decide)
  refine ⟨m, vmp, fmp, hok, ?_⟩
  obtain ⟨pss, hfm, hvm, hverts, hedges, hfaces, hroot, hface, hnext, hfp, hvrep, hfrep,
    htw, hnd⟩ := from_faces_ok_core hok
  have hlen : pss.length = 2 := by
    rw [facesMapped_length hfm]
    rfl
  have hi0 : (0 : Nat) < pss.length := by omega
  have hfl : faceLen pss 0 = 101 := by
    obtain ⟨_, _, h3⟩ := facesMapped_getD hfm 0 (by decide)
    rw [faceLen, h3]
    decide
  have htot : totalLen pss = 202 := by
    rw [facesMapped_totalLen hfm]
    decide
  have hb0 : blockOff pss 0 = 0 := by cases pss <;> rfl
  have hD : nextSearch m 0 0 100 = false := by
    rcases hns : nextSearch m 0 0 100 with _ | _
    · rfl
    · exfalso
      obtain ⟨t, ht1, ht2, hit⟩ := nextSearch_true_iter 100 0 hns
      have hstep := nextIter_at hfm hedges hnext hi0 t 0 (by rw [hfl]; decide)
      rw [hb0, hfl] at hstep
      simp only [Nat.zero_add] at hstep
      rw [hit] at hstep
      injection hstep with hstep
      have hmod : t % 101 = t := Nat.mod_eq_of_lt (by omega)
      omega
  have h0mem : (0 : Nat) ∈ m.edges := by
    rw [hedges, htot]
    decide
  rw [Douconel.verify_invariants]
  have hall : (m.edges.all fun e => nextSearch m e e 100) = false := by
    rw [List.all_eq_false]
    exact ⟨0, h0mem, by rw [hD]; simp⟩
  rw [hall, Bool.and_false]

/-- C2: on `[[0,1,2]]` — a half-edge with no counterpart — `from_faces`
does not return a typed error: the twin pass panics (the Rust code calls
`.expect(...)` where its own comment says it should return an error). -/
theorem missing_twin_panics : from_faces [[0, 1, 2]] = .panicMissingTwin := by rfl

/-- C7: the code has no degenerate-face check: the 2-gon input `[[0,1]]`
is accepted by `from_faces` and the resulting mesh passes all three
verification passes, so a face with fewer than 3 vertices is not rejected. -/
theorem degenerate_face_not_rejected :
    isOkBuild (from_faces [[0, 1]]) = true ∧
    verifyAfterBuild [[0, 1]] = some (true, true, true) := by
  constructor
  · rfl
  · rfl

/-! ## Pathfinding lemmas (claims C8 and C9) -/

theorem insertByCost_head {T W : Type} [LinearOrder W] (x : List T × W) :
    ∀ l : List (List T × W), (insertByCost x l).head? =
      match l.head? with
      | none => some x
      | some y => if x.2 ≤ y.2 then some x else some y
  | [] => rfl
  | y :: t => by
    rw [insertByCost]
    by_cases h : x.2 ≤ y.2 <;> simp [h]

theorem sortByCost_head {T W : Type} [LinearOrder W] :
    ∀ l : List (List T × W), (sortByCost l).head? = firstMinByCost l
  | [] => rfl
  | x :: t => by
    rw [sortByCost, firstMinByCost, insertByCost_head, sortByCost_head t]

theorem firstMinByCost_none {T W : Type} [LinearOrder W] :
    ∀ {l : List (List T × W)}, firstMinByCost l = none ↔ l = []
  | [] => by simp [firstMinByCost]
  | x :: t => by
    rw [firstMinByCost]
    rcases h : firstMinByCost t with _ | m
    · simp
    · by_cases hle : x.2 ≤ m.2 <;> simp [hle]

theorem firstMinByCost_le {T W : Type} [LinearOrder W] :
    ∀ {l : List (List T × W)} {m : List T × W}, firstMinByCost l = some m →
      ∀ r ∈ l, m.2 ≤ r.2 := by
  intro l
  induction l with
  | nil => intro m h; simp [firstMinByCost] at h
  | cons x t ih =>
    intro m h r hr
    rw [firstMinByCost] at h
    rcases hm : firstMinByCost t with _ | m' <;> simp only [hm] at h
    · injection h with h
      subst h
      have ht : t = [] := firstMinByCost_none.mp hm
      subst ht
      have hrx := List.mem_singleton.mp hr
      subst hrx
      exact le_refl _
    · by_cases hle : x.2 ≤ m'.2
      · rw [if_pos hle] at h
        injection h with h
        subst h
        rcases List.mem_cons.mp hr with hrx | hr'
        · subst hrx
          exact le_refl _
        · exact le_trans hle (ih hm r hr')
      · rw [if_neg hle] at h
        injection h with h
        subst h
        rcases List.mem_cons.mp hr with hrx | hr'
        · subst hrx
          exact le_of_not_le hle
        · exact ih hm r hr'

theorem cachedSuccessors_coherent {T W : Type} [DecidableEq T] {nf : T → List T}
    {wf : T → T → W} {cache : PathCache T W} (h : CoherentCache nf wf cache) (elem : T) :
    (cachedSuccessors nf wf elem cache).1 = (nf elem).map (fun n => (n, wf elem n)) ∧
    CoherentCache nf wf (cachedSuccessors nf wf elem cache).2 := by
  rcases hl : alookup cache elem with _ | l
  · constructor
    · simp [cachedSuccessors, hl]
    · intro p hp
      simp only [cachedSuccessors, hl] at hp
      rcases List.mem_cons.mp hp with hpe | hp'
      · subst hpe
        rfl
      · exact h p hp'
  · constructor
    · simp only [cachedSuccessors, hl]
      exact h (elem, l) (alookup_mem hl)
    · simp only [cachedSuccessors, hl]
      exact h

theorem dijkstraAux_cache_irrelevant {T W : Type} [DecidableEq T] [LinearOrder W] [Add W]
    (nf : T → List T) (wf : T → T → W) (g : T → Bool) :
    ∀ (fuel : Nat) (frontier : List (T × W × List T)) (settled : List T)
      (c1 c2 : PathCache T W), CoherentCache nf wf c1 → CoherentCache nf wf c2 →
      (dijkstraAux nf wf g fuel frontier settled c1).1
        = (dijkstraAux nf wf g fuel frontier settled c2).1 := by
  intro fuel
  induction fuel with
  | zero => intro frontier settled c1 c2 _ _; rfl
  | succ f ih =>
    intro frontier settled c1 c2 h1 h2
    rcases hm : extractMin frontier with _ | pr
    · simp only [dijkstraAux, hm]
    · obtain ⟨⟨node, cost, path⟩, rest⟩ := pr
      simp only [dijkstraAux, hm]
      by_cases hg : g node = true
      · rw [if_pos hg, if_pos hg]
      · rw [if_neg hg, if_neg hg]
        by_cases hs : node ∈ settled
        · rw [if_pos hs, if_pos hs]
          exact ih rest settled c1 c2 h1 h2
        · rw [if_neg hs, if_neg hs]
          rcases hc1 : cachedSuccessors nf wf node c1 with ⟨succs1, c1'⟩
          rcases hc2 : cachedSuccessors nf wf node c2 with ⟨succs2, c2'⟩
          have hcs1 := cachedSuccessors_coherent h1 node
          have hcs2 := cachedSuccessors_coherent h2 node
          rw [hc1] at hcs1
          rw [hc2] at hcs2
          simp only [hc1, hc2]
          rw [show succs1 = succs2 from hcs1.1.trans hcs2.1.symm]
          exact ih _ _ c1' c2' hcs1.2 hcs2.2

/-- C8: `find_shortest_cycle` matches the spec's description: it equals the
minimum-cost result, over the neighbors of `a`, of the shortest paths back
to `a` over the one shared cache with `a` prepended (`shortest_cycle_spec`);
it is `none` exactly when no neighbor has a path back to `a`; and its cost
is minimal among all collected neighbor paths. -/
theorem find_shortest_cycle_correct {T W : Type} [DecidableEq T] [LinearOrder W] [Add W]
    [Zero W] (fuel : Nat) (a : T) (nf : T → List T) (wf : T → T → W)
    (cache : PathCache T W) :
    find_shortest_cycle fuel a nf wf cache = shortest_cycle_spec fuel a nf wf cache ∧
    ((find_shortest_cycle fuel a nf wf cache).1 = none ↔
      (collectPaths fuel a nf wf (nf a) cache).1 = []) ∧
    (∀ p c, (find_shortest_cycle fuel a nf wf cache).1 = some (p, c) →
      ∀ r ∈ (collectPaths fuel a nf wf (nf a) cache).1, c ≤ r.2) := by
  rcases hcp : collectPaths fuel a nf wf (nf a) cache with ⟨results, cache'⟩
  have hmain : find_shortest_cycle fuel a nf wf cache
      = shortest_cycle_spec fuel a nf wf cache := by
    simp only [find_shortest_cycle, shortest_cycle_spec, hcp, sortByCost_head]
  refine ⟨hmain, ?_, ?_⟩
  · rw [hmain]
    simp only [shortest_cycle_spec, hcp]
    rcases hf : firstMinByCost results with _ | m
    · simp [firstMinByCost_none.mp hf]
    · obtain ⟨p', c'⟩ := m
      have hres : results ≠ [] := by
        intro he
        rw [he] at hf
        exact absurd hf (by simp [firstMinByCost])
      simp [hres]
  · intro p c hsome r hr
    rw [hmain] at hsome
    simp only [shortest_cycle_spec, hcp] at hsome hr
    rcases hf : firstMinByCost results with _ | m
    · simp only [hf] at hsome
      exact absurd hsome (by simp)
    · obtain ⟨p', c'⟩ := m
      simp only [hf, Option.some.injEq, Prod.mk.injEq] at hsome
      rw [← hsome.2]
      exact firstMinByCost_le hf r hr

/-- C9: the result of `find_shortest_path` (path and cost) does not depend
on the state of the shared cache, provided the cache is coherent with the
neighbor and weight functions; in particular two invocations each starting
from a fresh empty cache return identical results. -/
theorem find_shortest_path_deterministic {T W : Type} [DecidableEq T] [LinearOrder W]
    [Add W] [Zero W] (fuel : Nat) (a b : T) (nf : T → List T) (wf : T → T → W)
    (c1 c2 : PathCache T W) (h1 : CoherentCache nf wf c1) (h2 : CoherentCache nf wf c2) :
    (find_shortest_path fuel a b nf wf c1).1 = (find_shortest_path fuel a b nf wf c2).1 :=
  dijkstraAux_cache_irrelevant nf wf (fun e => e == b) fuel [(a, 0, [])] [] c1 c2 h1 h2

/-- C9 witness: two fresh (empty, trivially coherent) caches on a concrete
graph. -/
theorem find_shortest_path_deterministic_witness :
    CoherentCache (fun n : Nat => [n + 1]) (fun _ _ => (1 : Nat)) [] ∧
    (find_shortest_path 5 0 2 (fun n : Nat => [n + 1]) (fun _ _ => (1 : Nat)) []).1
      = (find_shortest_path 5 0 2 (fun n : Nat => [n + 1]) (fun _ _ => (1 : Nat)) []).1 :=
  ⟨by intro p hp; exact absurd hp (List.not_mem_nil p),
    find_shortest_path_deterministic 5 0 2 (fun n => [n + 1]) (fun _ _ => 1) [] []
      (by intro p hp; exact absurd hp (List.not_mem_nil p))
      (by intro p hp; exact absurd hp (List.not_mem_nil p))⟩

/-! ## Witnesses on the tetrahedron input -/

/-- C1 witness: the tetrahedron input satisfies the face-size bound and its
mesh passes all three verification passes. -/
theorem from_faces_verifies_witness :
    ∃ m vmp fmp, from_faces tetFaces = .ok m vmp fmp ∧
      m.verify_properties = true ∧ m.verify_references = true ∧
      m.verify_invariants = true := by
  have h : isOkBuild (from_faces tetFaces) = true := by rfl
  obtain ⟨m, vmp, fmp, hok⟩ := isOkBuild_iff.mp h
  obtain ⟨h1, h2, h3⟩ := from_faces_verifies hok
  exact ⟨m, vmp, fmp, hok, h1, h2, h3 (by decide)⟩

/-- C4 witness: twin∘twin fixes edge 0 of the tetrahedron mesh. -/
theorem twin_twin_eq_self_witness :
    ∃ m vmp fmp, from_faces tetFaces = .ok m vmp fmp ∧
      ∃ t, m.twin 0 = some t ∧ m.twin t = some 0 ∧ (m.twin 0).bind m.twin = some 0 := by
  have h : isOkBuild (from_faces tetFaces) = true := by rfl
  obtain ⟨m, vmp, fmp, hok⟩ := isOkBuild_iff.mp h
  obtain ⟨pss, hfm, _, _, hedges, _, _, _, _, _, _, _, _, _⟩ := from_faces_ok_core hok
  have htot : totalLen pss = 12 := by
    rw [facesMapped_totalLen hfm]
    decide
  have he : (0 : Nat) ∈ m.edges := by
    rw [hedges, htot]
    decide
  exact ⟨m, vmp, fmp, hok, twin_twin_eq_self hok he⟩

/-- C5 witness: on the tetrahedron mesh, `next` from edge 0 first returns
to it after exactly `|corners(face(0))|` steps. -/
theorem next_cycle_length_witness :
    ∃ m vmp fmp, from_faces tetFaces = .ok m vmp fmp ∧
      ∃ f cs, m.face 0 = some f ∧ m.corners f = some cs ∧
        nextIter m 0 cs.length = some 0 ∧
        ∀ t, 0 < t → t < cs.length → nextIter m 0 t ≠ some 0 := by
  have h : isOkBuild (from_faces tetFaces) = true := by rfl
  obtain ⟨m, vmp, fmp, hok⟩ := isOkBuild_iff.mp h
  obtain ⟨pss, hfm, _, _, hedges, _, _, _, _, _, _, _, _, _⟩ := from_faces_ok_core hok
  have htot : totalLen pss = 12 := by
    rw [facesMapped_totalLen hfm]
    decide
  have he : (0 : Nat) ∈ m.edges := by
    rw [hedges, htot]
    decide
  exact ⟨m, vmp, fmp, hok, next_cycle_length hok he⟩

/-- C6 witness: face 0 of the tetrahedron mesh has matching `edges_of` and
`corners` lengths and correct back-pointers. -/
theorem face_edges_corners_witness :
    ∃ m vmp fmp, from_faces tetFaces = .ok m vmp fmp ∧
      ∃ es cs, m.edges_of 0 = some es ∧ m.corners 0 = some cs ∧ es.length = cs.length ∧
        ∀ e ∈ es, m.face e = some 0 := by
  have h : isOkBuild (from_faces tetFaces) = true := by rfl
  obtain ⟨m, vmp, fmp, hok⟩ := isOkBuild_iff.mp h
  obtain ⟨pss, hfm, _, _, _, hfaces, _, _, _, _, _, _, _, _⟩ := from_faces_ok_core hok
  have hf : (0 : Nat) ∈ m.faces := by
    rw [hfaces]
    decide
  exact ⟨m, vmp, fmp, hok, face_edges_corners hok hf⟩

/-- C10 witness: counts and pointer-map bijections on the tetrahedron
input. -/
theorem from_faces_counts_and_maps_witness :
    ∃ m vmp fmp, from_faces tetFaces = .ok m vmp fmp ∧
      (m.verts.length = (uniqueFirst tetFaces.flatten).length ∧
       m.faces.length = tetFaces.length ∧
       m.edges.length = sumLen tetFaces ∧
       (∀ x, (∃ v, (x, v) ∈ vmp) ↔ x ∈ tetFaces.flatten) ∧
       (∀ v, (∃ x, (x, v) ∈ vmp) ↔ v ∈ m.verts) ∧
       (∀ x v v', (x, v) ∈ vmp → (x, v') ∈ vmp → v = v') ∧
       (∀ x x' v, (x, v) ∈ vmp → (x', v) ∈ vmp → x = x') ∧
       (∀ i, (∃ y, (i, y) ∈ fmp) ↔ i < tetFaces.length) ∧
       (∀ y, (∃ i, (i, y) ∈ fmp) ↔ y ∈ m.faces) ∧
       (∀ i y y', (i, y) ∈ fmp → (i, y') ∈ fmp → y = y') ∧
       (∀ i i' y, (i, y) ∈ fmp → (i', y) ∈ fmp → i = i')) := by
  have h : isOkBuild (from_faces tetFaces) = true := by rfl
  obtain ⟨m, vmp, fmp, hok⟩ := isOkBuild_iff.mp h
  exact ⟨m, vmp, fmp, hok, from_faces_counts_and_maps hok⟩
